import Mathlib

/-!
Verification of the core data-shaping logic of a CI-dashboard web application:
duration formatting, worst-status aggregation, branch summarization, trigger
grouping, DAG layout of job dependency graphs, and timeline derivation.

The TypeScript source is shallowly embedded: numbers that the source treats as
integral (millisecond timestamps, counts, pixel offsets) become `Int`/`Nat`,
fractional pixel arithmetic becomes `ℚ`, JavaScript `Map`s become association
lists preserving insertion order, `Array.prototype.sort` (stable) becomes
`List.insertionSort` (stable), and `undefined` becomes `Option`.
-/

/-! ### Formatting utilities (src/utils/format.ts)

`formatDuration` receives milliseconds. After the negative guard all divisions
act on non-negative integers, where JavaScript `Math.floor` agrees with `Int`
division. -/

def formatDuration (ms : Int) : String :=
  if ms < 0 then "—"
  else
    let totalSeconds := ms / 1000
    let hours := totalSeconds / 3600
    let minutes := (totalSeconds % 3600) / 60
    let seconds := totalSeconds % 60
    if hours > 0 then s!"{hours}h {minutes}m"
    else if minutes > 0 then s!"{minutes}m {seconds}s"
    else s!"{seconds}s"

/-- `truncate` from src/utils/format.ts: truncate with an ellipsis. -/
def truncate (str : String) (maxLen : Nat) : String :=
  if str.length ≤ maxLen then str else (str.take (maxLen - 1)) ++ "…"

/-- `shortSha` from src/utils/format.ts: first seven characters of a revision. -/
def shortSha (sha : String) : String := sha.take 7

/-! ### Status model

The source stores statuses as plain strings (TypeScript string-literal unions);
we embed them as `String` so that the `indexOf`-returns-`-1` behaviour and the
"first element fallback" branch of the aggregators stay visible. -/

/-- A workflow record; the aggregation functions only read `status`. -/
structure Workflow where
  id : String
  name : String
  status : String
deriving DecidableEq, Repr

/-- The priority list local to `aggregateWorkflowStatus` in
src/hooks/useCircleCI.ts. -/
def hooksPriority : List String :=
  ["failed", "error", "failing", "running", "on_hold",
   "canceled", "not_run", "unauthorized", "success"]

/-- `aggregateWorkflowStatus` from src/hooks/useCircleCI.ts: `undefined` on an
empty list; otherwise the first status of the priority list that some member
carries; otherwise the first member's status. -/
def aggregateWorkflowStatus (workflows : List Workflow) : Option String :=
  if workflows.length = 0 then none
  else
    match hooksPriority.find? (fun st => workflows.any (fun w => w.status = st)) with
    | some st => some st
    | none => workflows.head?.map (fun w => w.status)

/-- The priority list local to `aggregateWorkflowStatuses` in the Triggers
page — a separate copy in the source. -/
def triggersPriority : List String :=
  ["failed", "error", "failing", "running", "on_hold",
   "canceled", "not_run", "unauthorized", "success"]

/-- `aggregateWorkflowStatuses` from the Triggers page.  The source has no
empty-list guard and `workflows[0].status` throws on an empty array; we model
that unreachable error case as `none`. -/
def aggregateWorkflowStatuses (workflows : List Workflow) : Option String :=
  match triggersPriority.find? (fun st => workflows.any (fun w => w.status = st)) with
  | some st => some st
  | none => workflows.head?.map (fun w => w.status)

/-- `STATUS_PRIORITY` from the Triggers page — a third copy of the order. -/
def STATUS_PRIORITY : List String :=
  ["failed", "error", "failing", "running", "on_hold",
   "canceled", "not_run", "unauthorized", "success"]

/-- JavaScript `Array.prototype.indexOf`: first index, or `-1` if absent. -/
def statusIndexOf (s : String) : Int :=
  if s ∈ STATUS_PRIORITY then (STATUS_PRIORITY.findIdx (fun x => x = s) : Int)
  else -1

/-- `pickWorstStatus` from the Triggers page: the status with the lower
priority index wins; ties keep the first argument. -/
def pickWorstStatus (a b : String) : String :=
  if statusIndexOf a ≤ statusIndexOf b then a else b

/-- The incremental worst-status tracking done by `buildGroups`: starting from
`undefined`, fold each member's status through `pickWorstStatus`. -/
def foldWorst (statuses : List String) : Option String :=
  statuses.foldl
    (fun acc s =>
      match acc with
      | none => some s
      | some a => some (pickWorstStatus a s))
    none

/-- `isActiveStatus` from src/components/StatusBadge.tsx. -/
def isActiveStatus (status : String) : Bool :=
  ["running", "failing", "queued", "not_running", "created", "pending",
   "setup-pending", "setup"].contains status

example : formatDuration 0 = "0s" := by decide
example : formatDuration 65000 = "1m 5s" := by decide
example : formatDuration 3700000 = "1h 1m" := by decide
example : formatDuration (-5) = "—" := by decide
example : aggregateWorkflowStatus [⟨"a", "w", "success"⟩, ⟨"b", "w", "failed"⟩] = some "failed" := by decide
example : aggregateWorkflowStatus [] = none := by decide
example : aggregateWorkflowStatus [⟨"a", "w", "weird"⟩, ⟨"b", "w", "odd"⟩] = some "weird" := by decide
example : pickWorstStatus "success" "running" = "running" := by decide
example : foldWorst ["success", "failed", "running"] = some "failed" := by decide

/-! ### Generic lemmas about `List.find?` and `List.findIdx` -/

theorem find?_split {α : Type} (l : List α) (p : α → Bool) (a : α)
    (h : l.find? p = some a) :
    ∃ l1 l2, l = l1 ++ a :: l2 ∧ ∀ x ∈ l1, p x = false := by
  induction l with
  | nil => simp [List.find?] at h
  | cons b tl ih =>
    by_cases hb : p b
    · rw [List.find?_cons_of_pos _ hb] at h
      cases h
      exact ⟨[], tl, rfl, by simp⟩
    · rw [List.find?_cons_of_neg _ (by simpa using hb)] at h
      obtain ⟨l1, l2, hl, hl1⟩ := ih h
      refine ⟨b :: l1, l2, by simp [hl], ?_⟩
      intro x hx
      rcases List.mem_cons.mp hx with rfl | hx
      · simpa using hb
      · exact hl1 x hx

theorem findIdx_append_false {α : Type} (p : α → Bool) (l1 l2 : List α)
    (h : ∀ x ∈ l1, p x = false) :
    (l1 ++ l2).findIdx p = l1.length + l2.findIdx p := by
  induction l1 with
  | nil => simp
  | cons a tl ih =>
    have ha := h a (by simp)
    have := ih (fun x hx => h x (by simp [hx]))
    simp [List.findIdx_cons, ha, this]
    omega

theorem statusIndexOf_mem_split (r : String) (l1 l2 : List String)
    (hsplit : STATUS_PRIORITY = l1 ++ r :: l2) (hr1 : r ∉ l1) :
    statusIndexOf r = (l1.length : Int) := by
  have hmem : r ∈ STATUS_PRIORITY := by rw [hsplit]; simp
  rw [statusIndexOf, if_pos hmem, hsplit]
  rw [findIdx_append_false _ _ _ (fun x hx => by
    simp only [decide_eq_false_iff_not]
    rintro rfl
    exact hr1 hx)]
  simp [List.findIdx_cons]

theorem statusIndexOf_mem_ge (t : String) (l1 l2 : List String)
    (hsplit : STATUS_PRIORITY = l1 ++ l2) (hmem : t ∈ STATUS_PRIORITY)
    (ht1 : t ∉ l1) :
    (l1.length : Int) ≤ statusIndexOf t := by
  rw [statusIndexOf, if_pos hmem, hsplit]
  rw [findIdx_append_false _ _ _ (fun x hx => by
    simp only [decide_eq_false_iff_not]
    rintro rfl
    exact ht1 hx)]
  simp

/-- The first hit of a scan of `STATUS_PRIORITY` has the least priority index
among all hits. -/
theorem find?_priority_min (p : String → Bool) (r : String)
    (h : STATUS_PRIORITY.find? p = some r) :
    ∀ t ∈ STATUS_PRIORITY, p t = true → statusIndexOf r ≤ statusIndexOf t := by
  obtain ⟨l1, l2, hsplit, hl1⟩ := find?_split _ _ _ h
  have hpr : p r = true := List.find?_some h
  intro t ht hpt
  have hr1 : r ∉ l1 := fun hm => by simp [hl1 r hm] at hpr
  have ht1 : t ∉ l1 := fun hm => by simp [hl1 t hm] at hpt
  rw [statusIndexOf_mem_split r l1 l2 hsplit hr1]
  exact statusIndexOf_mem_ge t l1 (r :: l2) hsplit ht ht1

theorem statusIndexOf_inj :
    ∀ x ∈ STATUS_PRIORITY, ∀ y ∈ STATUS_PRIORITY,
      statusIndexOf x = statusIndexOf y → x = y := by decide

/-! ### The fold of `pickWorstStatus` computes a priority-index minimum -/

theorem foldl_pick_min (rest : List String) (a : String) :
    (rest.foldl pickWorstStatus a) ∈ a :: rest ∧
    statusIndexOf (rest.foldl pickWorstStatus a) ≤ statusIndexOf a ∧
    ∀ t ∈ rest, statusIndexOf (rest.foldl pickWorstStatus a) ≤ statusIndexOf t := by
  induction rest generalizing a with
  | nil => exact ⟨by simp, le_refl _, by simp⟩
  | cons s tl ih =>
    obtain ⟨hmem, hle, hall⟩ := ih (pickWorstStatus a s)
    have hpick_mem : pickWorstStatus a s = a ∨ pickWorstStatus a s = s := by
      unfold pickWorstStatus; split <;> simp
    have hpick_le_a : statusIndexOf (pickWorstStatus a s) ≤ statusIndexOf a := by
      unfold pickWorstStatus; split <;> omega
    have hpick_le_s : statusIndexOf (pickWorstStatus a s) ≤ statusIndexOf s := by
      unfold pickWorstStatus; split <;> omega
    refine ⟨?_, ?_, ?_⟩
    · have hin : List.foldl pickWorstStatus (pickWorstStatus a s) tl ∈ a :: s :: tl := by
        rcases List.mem_cons.mp hmem with heq | hmem'
        · rw [heq]
          rcases hpick_mem with hp | hp <;> rw [hp] <;> simp
        · simp [hmem']
      simpa [List.foldl_cons] using hin
    · exact le_trans hle hpick_le_a
    · intro t htm
      rcases List.mem_cons.mp htm with rfl | htl
      · exact le_trans hle hpick_le_s
      · exact hall t htl

theorem foldWorst_cons (s : String) (rest : List String) :
    foldWorst (s :: rest) = some (rest.foldl pickWorstStatus s) := by
  show List.foldl _ (some s) rest = _
  induction rest generalizing s with
  | nil => rfl
  | cons x tl ih => exact ih (pickWorstStatus s x)

/-- C6: `formatDuration` returns an em-dash placeholder for negative input;
`"{h}h {m}m"` for durations of at least one hour; `"{m}m {s}s"` for durations
of at least one minute but under an hour; `"{s}s"` otherwise — components
obtained by integer truncation toward zero — and the four specified sample
values evaluate as stated. -/
theorem formatDuration_spec :
    (∀ ms : Int, ms < 0 → formatDuration ms = "—") ∧
    (∀ ms : Int, 3600000 ≤ ms →
      formatDuration ms = s!"{ms / 1000 / 3600}h {ms / 1000 % 3600 / 60}m") ∧
    (∀ ms : Int, 60000 ≤ ms → ms < 3600000 →
      formatDuration ms = s!"{ms / 1000 % 3600 / 60}m {ms / 1000 % 60}s") ∧
    (∀ ms : Int, 0 ≤ ms → ms < 60000 →
      formatDuration ms = s!"{ms / 1000 % 60}s") ∧
    formatDuration 0 = "0s" ∧ formatDuration 65000 = "1m 5s" ∧
    formatDuration 3700000 = "1h 1m" ∧ formatDuration (-5) = "—" := by
  refine ⟨?_, ?_, ?_, ?_, by decide, by decide, by decide, by decide⟩
  · intro ms h
    unfold formatDuration
    rw [if_pos h]
  · intro ms h
    unfold formatDuration
    rw [if_neg (by omega)]
    show (if ms / 1000 / 3600 > 0
          then s!"{ms / 1000 / 3600}h {ms / 1000 % 3600 / 60}m"
          else if ms / 1000 % 3600 / 60 > 0
          then s!"{ms / 1000 % 3600 / 60}m {ms / 1000 % 60}s"
          else s!"{ms / 1000 % 60}s") = _
    rw [if_pos (by omega)]
  · intro ms h1 h2
    unfold formatDuration
    rw [if_neg (by omega)]
    show (if ms / 1000 / 3600 > 0
          then s!"{ms / 1000 / 3600}h {ms / 1000 % 3600 / 60}m"
          else if ms / 1000 % 3600 / 60 > 0
          then s!"{ms / 1000 % 3600 / 60}m {ms / 1000 % 60}s"
          else s!"{ms / 1000 % 60}s") = _
    rw [if_neg (by omega), if_pos (by omega)]
  · intro ms h1 h2
    unfold formatDuration
    rw [if_neg (by omega)]
    show (if ms / 1000 / 3600 > 0
          then s!"{ms / 1000 / 3600}h {ms / 1000 % 3600 / 60}m"
          else if ms / 1000 % 3600 / 60 > 0
          then s!"{ms / 1000 % 3600 / 60}m {ms / 1000 % 60}s"
          else s!"{ms / 1000 % 60}s") = _
    rw [if_neg (by omega), if_neg (by omega)]

theorem formatDuration_spec_witness :
    formatDuration (-7) = "—" ∧ formatDuration 7200000 = "2h 0m" ∧
    formatDuration 90000 = "1m 30s" ∧ formatDuration 500 = "0s" :=
  ⟨formatDuration_spec.1 (-7) (by decide),
   (formatDuration_spec.2.1 7200000 (by decide)).trans (by decide),
   (formatDuration_spec.2.2.1 90000 (by decide) (by decide)).trans (by decide),
   (formatDuration_spec.2.2.2.1 500 (by decide) (by decide)).trans (by decide)⟩

/-- C1: on the empty collection `aggregateWorkflowStatus` returns no result
(`none`, not an error); on a non-empty collection it returns the status
occupying the earliest position of the fixed priority order that occurs in the
collection; and if no member's status occurs in that order it returns the
first member's status. -/
theorem aggregateWorkflowStatus_spec :
    aggregateWorkflowStatus [] = none ∧
    ∀ ws : List Workflow, ws ≠ [] →
      ∃ s, aggregateWorkflowStatus ws = some s ∧
        (((∃ w ∈ ws, w.status = s) ∧ s ∈ hooksPriority ∧
            ∀ t ∈ hooksPriority, (∃ w ∈ ws, w.status = t) →
              statusIndexOf s ≤ statusIndexOf t) ∨
          ((∀ w ∈ ws, w.status ∉ hooksPriority) ∧
            ∃ w0, ws.head? = some w0 ∧ s = w0.status)) := by
  refine ⟨rfl, ?_⟩
  intro ws hne
  unfold aggregateWorkflowStatus
  rw [if_neg (fun h => hne (List.length_eq_zero.mp h))]
  cases hfind : hooksPriority.find? (fun st => ws.any (fun w => w.status = st)) with
  | some st =>
    refine ⟨st, by simp [hfind], Or.inl ⟨?_, ?_, ?_⟩⟩
    · have h1 := List.find?_some hfind
      simpa using h1
    · exact List.mem_of_find?_eq_some hfind
    · intro t ht ⟨w, hw, hws⟩
      exact find?_priority_min _ st hfind t ht
        (List.any_eq_true.mpr ⟨w, hw, by simp [hws]⟩)
  | none =>
    have hnone := List.find?_eq_none.mp hfind
    obtain ⟨w, rest, rfl⟩ : ∃ w rest, ws = w :: rest := by
      cases ws with
      | nil => exact absurd rfl hne
      | cons w rest => exact ⟨w, rest, rfl⟩
    refine ⟨w.status, by simp [hfind], Or.inr ⟨?_, w, rfl, rfl⟩⟩
    intro w' hw' hmem
    have hany : (w :: rest).any (fun x => x.status = w'.status) = true :=
      List.any_eq_true.mpr ⟨w', hw', by simp⟩
    exact absurd hany (hnone w'.status hmem)

theorem aggregateWorkflowStatus_spec_witness :
    ∃ s, aggregateWorkflowStatus [⟨"a", "wf", "running"⟩, ⟨"b", "wf", "failed"⟩] = some s ∧
      (((∃ w ∈ [Workflow.mk "a" "wf" "running", Workflow.mk "b" "wf" "failed"], w.status = s) ∧
          s ∈ hooksPriority ∧
          ∀ t ∈ hooksPriority,
            (∃ w ∈ [Workflow.mk "a" "wf" "running", Workflow.mk "b" "wf" "failed"], w.status = t) →
              statusIndexOf s ≤ statusIndexOf t) ∨
        ((∀ w ∈ [Workflow.mk "a" "wf" "running", Workflow.mk "b" "wf" "failed"],
            w.status ∉ hooksPriority) ∧
          ∃ w0, [Workflow.mk "a" "wf" "running", Workflow.mk "b" "wf" "failed"].head? = some w0 ∧
            s = w0.status)) :=
  aggregateWorkflowStatus_spec.2
    [⟨"a", "wf", "running"⟩, ⟨"b", "wf", "failed"⟩] (by decide)

theorem aggregate_copies_eq (ws : List Workflow) (hne : ws ≠ []) :
    aggregateWorkflowStatus ws = aggregateWorkflowStatuses ws := by
  unfold aggregateWorkflowStatus aggregateWorkflowStatuses
  rw [if_neg (fun h => hne (List.length_eq_zero.mp h))]
  rfl

/-- C9: the repository's separate copies of the worst-status logic agree: for
every non-empty workflow list whose statuses are drawn from the workflow-status
enumeration, folding the binary `pickWorstStatus` member by member (as the
trigger grouper does) equals the first-match priority scans
`aggregateWorkflowStatus` (hooks module) and `aggregateWorkflowStatuses`
(Triggers module). -/
theorem worstStatus_copies_agree (ws : List Workflow) (hne : ws ≠ [])
    (hmem : ∀ w ∈ ws, w.status ∈ STATUS_PRIORITY) :
    foldWorst (ws.map (fun w => w.status)) = aggregateWorkflowStatus ws ∧
    aggregateWorkflowStatus ws = aggregateWorkflowStatuses ws := by
  refine ⟨?_, aggregate_copies_eq ws hne⟩
  obtain ⟨w, rest, rfl⟩ : ∃ w rest, ws = w :: rest := by
    cases ws with
    | nil => exact absurd rfl hne
    | cons w rest => exact ⟨w, rest, rfl⟩
  rw [List.map_cons, foldWorst_cons]
  set r := (rest.map (fun w => w.status)).foldl pickWorstStatus w.status with hr
  obtain ⟨hrmem, hrle, hrall⟩ := foldl_pick_min (rest.map (fun w => w.status)) w.status
  -- r is the status of some member of ws
  have hrstat : ∃ w' ∈ w :: rest, w'.status = r := by
    rcases List.mem_cons.mp hrmem with heq | hmem'
    · exact ⟨w, by simp, heq.symm⟩
    · obtain ⟨w', hw', hst⟩ := List.mem_map.mp hmem'
      exact ⟨w', by simp [hw'], hst⟩
  obtain ⟨wr, hwr, hwrst⟩ := hrstat
  have hrprio : r ∈ STATUS_PRIORITY := hwrst ▸ hmem wr hwr
  -- the scan succeeds
  have hsome : (hooksPriority.find?
      (fun st => (w :: rest).any (fun w => w.status = st))).isSome := by
    rw [List.find?_isSome]
    exact ⟨w.status, hmem w (by simp), by simp⟩
  obtain ⟨s0, hfind⟩ := Option.isSome_iff_exists.mp hsome
  -- the scan's result occurs in ws
  have hs0occ : ∃ w' ∈ w :: rest, w'.status = s0 := by
    have h1 := List.find?_some hfind
    simpa using h1
  have hs0prio : s0 ∈ STATUS_PRIORITY := List.mem_of_find?_eq_some hfind
  -- s0 and r have equal priority index
  have hle1 : statusIndexOf s0 ≤ statusIndexOf r :=
    find?_priority_min _ s0 hfind r hrprio
      (List.any_eq_true.mpr ⟨wr, hwr, by simp [hwrst]⟩)
  have hle2 : statusIndexOf r ≤ statusIndexOf s0 := by
    obtain ⟨w', hw', hst⟩ := hs0occ
    rcases List.mem_cons.mp hw' with rfl | hw''
    · exact hst ▸ hrle
    · exact hst ▸ hrall w'.status (List.mem_map.mpr ⟨w', hw'', rfl⟩)
  have : r = s0 := statusIndexOf_inj r hrprio s0 hs0prio (le_antisymm hle2 hle1)
  rw [this]
  unfold aggregateWorkflowStatus
  rw [if_neg (by simp), hfind]

theorem worstStatus_copies_agree_witness :
    foldWorst ([Workflow.mk "a" "wf" "success", Workflow.mk "b" "wf" "running",
        Workflow.mk "c" "wf" "canceled"].map (fun w => w.status)) =
      aggregateWorkflowStatus [Workflow.mk "a" "wf" "success", Workflow.mk "b" "wf" "running",
        Workflow.mk "c" "wf" "canceled"] ∧
    aggregateWorkflowStatus [Workflow.mk "a" "wf" "success", Workflow.mk "b" "wf" "running",
        Workflow.mk "c" "wf" "canceled"] =
      aggregateWorkflowStatuses [Workflow.mk "a" "wf" "success", Workflow.mk "b" "wf" "running",
        Workflow.mk "c" "wf" "canceled"] :=
  worstStatus_copies_agree
    [Workflow.mk "a" "wf" "success", Workflow.mk "b" "wf" "running", Workflow.mk "c" "wf" "canceled"]
    (by decide) (by decide)

/-! ### Jobs and the timeline deriver (JobTimeline component)

Timestamps are embedded as epoch milliseconds (`Int`); the source obtains them
via `new Date(s).getTime()` from ISO strings.  A missing `stopped_at` is
replaced by the current time `now`, which we pass explicitly. -/

structure Job where
  id : String
  name : String
  status : String
  type : String
  started_at : Option Int
  stopped_at : Option Int
  job_number : Option Nat
  dependencies : List String
deriving DecidableEq, Repr

/-- `jobs.filter((j) => j.started_at)`: only jobs with timing data. -/
def timedJobs (jobs : List Job) : List Job :=
  jobs.filter (fun j => j.started_at.isSome)

def jobStartTime (j : Job) : Int := j.started_at.getD 0

def jobEndTime (now : Int) (j : Job) : Int := j.stopped_at.getD now

/-- `Math.min(...)` over a list of numbers (`none` models the empty spread,
which the source never reaches). -/
def intListMin : List Int → Option Int
  | [] => none
  | x :: xs => some (xs.foldl min x)

/-- `Math.max(...)` over a list of numbers. -/
def intListMax : List Int → Option Int
  | [] => none
  | x :: xs => some (xs.foldl max x)

/-- `Math.min(...startTimes)` over the non-empty list of start times. -/
def globalStartOf (jobs : List Job) : Int :=
  (intListMin ((timedJobs jobs).map jobStartTime)).getD 0

/-- `Math.max(...endTimes)` over the non-empty list of end times. -/
def globalEndOf (jobs : List Job) (now : Int) : Int :=
  (intListMax ((timedJobs jobs).map (jobEndTime now))).getD 0

def totalDurationOf (jobs : List Job) (now : Int) : Int :=
  globalEndOf jobs now - globalStartOf jobs

/-- JavaScript `Math.max` on two numbers. -/
def mathMax (a b : ℚ) : ℚ := if a ≤ b then b else a

/-- JavaScript `Math.min` on two numbers. -/
def mathMin (a b : ℚ) : ℚ := if a ≤ b then a else b

/-- `Math.max(200, Math.min(600, totalDurationMs / 100))`. -/
def chartWidthOf (jobs : List Job) (now : Int) : ℚ :=
  mathMax 200 (mathMin 600 ((totalDurationOf jobs now : ℚ) / 100))

structure BarData where
  job : Job
  startX : ℚ
  width : ℚ
  durationLabel : String
deriving DecidableEq, Repr

structure TimelineResult where
  bars : List BarData
  totalDurationMs : Int
  chartWidth : ℚ
deriving DecidableEq, Repr

/-- `computeTimeline` from the JobTimeline component. -/
def computeTimeline (jobs : List Job) (now : Int) : TimelineResult :=
  if (timedJobs jobs).length = 0 then ⟨[], 0, 0⟩
  else
    let globalStart := globalStartOf jobs
    let totalDurationMs := totalDurationOf jobs now
    let chartWidth := chartWidthOf jobs now
    let sorted := List.insertionSort
      (fun a b => jobStartTime a ≤ jobStartTime b) (timedJobs jobs)
    let bars := sorted.map (fun j =>
      let jobStart := jobStartTime j
      let jobDuration := jobEndTime now j - jobStart
      let startFraction : ℚ :=
        if totalDurationMs > 0
        then ((jobStart - globalStart : Int) : ℚ) / (totalDurationMs : ℚ) else 0
      let widthFraction : ℚ :=
        if totalDurationMs > 0
        then ((jobDuration : Int) : ℚ) / (totalDurationMs : ℚ) else 1
      ⟨j, startFraction * chartWidth, widthFraction * chartWidth,
        formatDuration jobDuration⟩)
    ⟨bars, totalDurationMs, chartWidth⟩

example :
    (computeTimeline
      [Job.mk "j1" "a" "success" "build" (some 0) (some 1000) none [],
       Job.mk "j2" "b" "success" "build" (some 500) (some 1000) none []] 0).chartWidth
      = 200 := by
  norm_num [computeTimeline, timedJobs, chartWidthOf, totalDurationOf,
    globalStartOf, globalEndOf, intListMin, intListMax, jobStartTime,
    jobEndTime, mathMax, mathMin]

theorem computeTimeline_bars (jobs : List Job) (now : Int)
    (h : ¬ (timedJobs jobs).length = 0) :
    (computeTimeline jobs now).bars =
      (List.insertionSort (fun a b => jobStartTime a ≤ jobStartTime b)
          (timedJobs jobs)).map (fun j =>
        ⟨j,
          (if 0 < totalDurationOf jobs now
           then ((jobStartTime j - globalStartOf jobs : Int) : ℚ) /
             (totalDurationOf jobs now : ℚ) else 0) * chartWidthOf jobs now,
          (if 0 < totalDurationOf jobs now
           then ((jobEndTime now j - jobStartTime j : Int) : ℚ) /
             (totalDurationOf jobs now : ℚ) else 1) * chartWidthOf jobs now,
          formatDuration (jobEndTime now j - jobStartTime j)⟩) := by
  unfold computeTimeline
  rw [if_neg h]

/-- C5: the timeline includes exactly the jobs carrying a start timestamp
(others are excluded, not an error); each bar's start offset and width follow
the proportional formulas when the total duration is positive; when the total
duration is 0 the offset is 0 and the width is the full chart width, so no
undefined coordinate arises; and in the two-job example (start 0 lasting
1000 ms; start 500 lasting 500 ms) the total duration is 1000 ms, the chart is
200 px wide, the first bar spans offset 0 to the full chart width, and the
second spans 100 → 200, i.e. 50% → 100% of the chart width. -/
theorem computeTimeline_spec (jobs : List Job) (now : Int) (j : Job)
    (hj : j ∈ timedJobs jobs) :
    ((computeTimeline jobs now).bars.map (fun b => b.job)).Perm (timedJobs jobs) ∧
    (∃ b ∈ (computeTimeline jobs now).bars, b.job = j ∧
      j.started_at.isSome = true ∧
      (0 < totalDurationOf jobs now →
        b.startX = ((jobStartTime j - globalStartOf jobs : Int) : ℚ) /
            (totalDurationOf jobs now : ℚ) * chartWidthOf jobs now ∧
        b.width = ((jobEndTime now j - jobStartTime j : Int) : ℚ) /
            (totalDurationOf jobs now : ℚ) * chartWidthOf jobs now) ∧
      (totalDurationOf jobs now = 0 →
        b.startX = 0 ∧ b.width = chartWidthOf jobs now)) ∧
    (computeTimeline
        [Job.mk "j1" "a" "success" "build" (some 0) (some 1000) none [],
         Job.mk "j2" "b" "success" "build" (some 500) (some 1000) none []]
        0).totalDurationMs = 1000 ∧
    (computeTimeline
        [Job.mk "j1" "a" "success" "build" (some 0) (some 1000) none [],
         Job.mk "j2" "b" "success" "build" (some 500) (some 1000) none []]
        0).chartWidth = 200 ∧
    (computeTimeline
        [Job.mk "j1" "a" "success" "build" (some 0) (some 1000) none [],
         Job.mk "j2" "b" "success" "build" (some 500) (some 1000) none []]
        0).bars.map (fun b => (b.startX, b.width)) = [(0, 200), (100, 100)] := by
  have hne : ¬ (timedJobs jobs).length = 0 := by
    intro h0
    rw [List.length_eq_zero.mp h0] at hj
    exact absurd hj (List.not_mem_nil j)
  refine ⟨?_, ?_, ?_, ?_, ?_⟩
  · rw [computeTimeline_bars jobs now hne]
    rw [List.map_map]
    rw [show ((fun b => BarData.job b) ∘ fun (j : Job) =>
        (⟨j,
          (if 0 < totalDurationOf jobs now
           then ((jobStartTime j - globalStartOf jobs : Int) : ℚ) /
             (totalDurationOf jobs now : ℚ) else 0) * chartWidthOf jobs now,
          (if 0 < totalDurationOf jobs now
           then ((jobEndTime now j - jobStartTime j : Int) : ℚ) /
             (totalDurationOf jobs now : ℚ) else 1) * chartWidthOf jobs now,
          formatDuration (jobEndTime now j - jobStartTime j)⟩ : BarData)) = id
      from rfl]
    rw [List.map_id]
    exact List.perm_insertionSort _ _
  · have hjs : j ∈ List.insertionSort
        (fun a b => jobStartTime a ≤ jobStartTime b) (timedJobs jobs) :=
      (List.perm_insertionSort _ _).mem_iff.mpr hj
    rw [computeTimeline_bars jobs now hne]
    refine ⟨_, List.mem_map_of_mem _ hjs, rfl, ?_, ?_, ?_⟩
    · exact (List.mem_filter.mp hj).2
    · intro ht
      rw [if_pos ht, if_pos ht]
      exact ⟨rfl, rfl⟩
    · intro ht
      rw [if_neg (by omega), if_neg (by omega)]
      exact ⟨zero_mul _, one_mul _⟩
  · norm_num [computeTimeline, timedJobs, totalDurationOf, globalStartOf,
      globalEndOf, intListMin, intListMax, jobStartTime, jobEndTime]
  · norm_num [computeTimeline, timedJobs, chartWidthOf, totalDurationOf,
      globalStartOf, globalEndOf, intListMin, intListMax, jobStartTime,
      jobEndTime, mathMax, mathMin]
  · norm_num [computeTimeline, timedJobs, chartWidthOf, totalDurationOf,
      globalStartOf, globalEndOf, intListMin, intListMax, jobStartTime,
      jobEndTime, mathMax, mathMin, List.insertionSort, List.orderedInsert]

theorem computeTimeline_spec_witness :
    (((computeTimeline
        [Job.mk "j1" "a" "success" "build" (some 0) (some 1000) none [],
         Job.mk "j2" "b" "success" "build" (some 500) (some 1000) none []]
        0).bars.map (fun b => b.job)).Perm
      (timedJobs
        [Job.mk "j1" "a" "success" "build" (some 0) (some 1000) none [],
         Job.mk "j2" "b" "success" "build" (some 500) (some 1000) none []])) ∧
    (∃ b ∈ (computeTimeline
        [Job.mk "j1" "a" "success" "build" (some 0) (some 1000) none [],
         Job.mk "j2" "b" "success" "build" (some 500) (some 1000) none []]
        0).bars,
      b.job = Job.mk "j1" "a" "success" "build" (some 0) (some 1000) none [] ∧
      (Job.mk "j1" "a" "success" "build" (some 0) (some 1000) none []).started_at.isSome = true ∧
      (0 < totalDurationOf
          [Job.mk "j1" "a" "success" "build" (some 0) (some 1000) none [],
           Job.mk "j2" "b" "success" "build" (some 500) (some 1000) none []] 0 →
        b.startX = ((jobStartTime (Job.mk "j1" "a" "success" "build" (some 0) (some 1000) none []) -
              globalStartOf
                [Job.mk "j1" "a" "success" "build" (some 0) (some 1000) none [],
                 Job.mk "j2" "b" "success" "build" (some 500) (some 1000) none []] : Int) : ℚ) /
            ((totalDurationOf
                [Job.mk "j1" "a" "success" "build" (some 0) (some 1000) none [],
                 Job.mk "j2" "b" "success" "build" (some 500) (some 1000) none []] 0 : Int) : ℚ) *
            chartWidthOf
              [Job.mk "j1" "a" "success" "build" (some 0) (some 1000) none [],
               Job.mk "j2" "b" "success" "build" (some 500) (some 1000) none []] 0 ∧
        b.width = ((jobEndTime 0 (Job.mk "j1" "a" "success" "build" (some 0) (some 1000) none []) -
              jobStartTime (Job.mk "j1" "a" "success" "build" (some 0) (some 1000) none []) : Int) : ℚ) /
            ((totalDurationOf
                [Job.mk "j1" "a" "success" "build" (some 0) (some 1000) none [],
                 Job.mk "j2" "b" "success" "build" (some 500) (some 1000) none []] 0 : Int) : ℚ) *
            chartWidthOf
              [Job.mk "j1" "a" "success" "build" (some 0) (some 1000) none [],
               Job.mk "j2" "b" "success" "build" (some 500) (some 1000) none []] 0) ∧
      (totalDurationOf
          [Job.mk "j1" "a" "success" "build" (some 0) (some 1000) none [],
           Job.mk "j2" "b" "success" "build" (some 500) (some 1000) none []] 0 = 0 →
        b.startX = 0 ∧
        b.width = chartWidthOf
          [Job.mk "j1" "a" "success" "build" (some 0) (some 1000) none [],
           Job.mk "j2" "b" "success" "build" (some 500) (some 1000) none []] 0)) ∧
    (computeTimeline
        [Job.mk "j1" "a" "success" "build" (some 0) (some 1000) none [],
         Job.mk "j2" "b" "success" "build" (some 500) (some 1000) none []]
        0).totalDurationMs = 1000 ∧
    (computeTimeline
        [Job.mk "j1" "a" "success" "build" (some 0) (some 1000) none [],
         Job.mk "j2" "b" "success" "build" (some 500) (some 1000) none []]
        0).chartWidth = 200 ∧
    (computeTimeline
        [Job.mk "j1" "a" "success" "build" (some 0) (some 1000) none [],
         Job.mk "j2" "b" "success" "build" (some 500) (some 1000) none []]
        0).bars.map (fun b => (b.startX, b.width)) = [(0, 200), (100, 100)] :=
  computeTimeline_spec
    [Job.mk "j1" "a" "success" "build" (some 0) (some 1000) none [],
     Job.mk "j2" "b" "success" "build" (some 500) (some 1000) none []] 0
    (Job.mk "j1" "a" "success" "build" (some 0) (some 1000) none []) (by decide)

/-! ### Branch summarizer (`useBranches` in src/hooks/useCircleCI.ts)

Pipelines carry their version-control descriptor flattened
(`vcs.branch`, `vcs.tag`, `vcs.revision`, `vcs.commit.subject`) and
`created_at` as epoch milliseconds.  JavaScript truthiness on the optional
strings is modeled by `truthy` (`undefined` and `""` are falsy). -/

structure Pipeline where
  id : String
  number : Nat
  created_at : Int
  branch : Option String
  tag : Option String
  revision : String
  commit_subject : Option String
  trigger_type : String
deriving DecidableEq, Repr

/-- JavaScript truthiness of an optional string. -/
def truthy : Option String → Bool
  | none => false
  | some s => decide (s ≠ "")

/-- `Map.has` over an insertion-ordered association list. -/
def mapHas {α : Type} (m : List (String × α)) (k : String) : Bool :=
  m.any (fun e => e.1 = k)

/-- `Map.get` over an insertion-ordered association list. -/
def mapGet? {α : Type} (m : List (String × α)) (k : String) : Option α :=
  (m.find? (fun e => e.1 = k)).map (fun e => e.2)

/-- Loop state of `useBranches`: the latest-pipeline map (insertion ordered),
the per-branch counts (modeled extensionally — a key the JS `Map` lacks reads
0 here), and the running count of branchless pipelines. -/
structure BranchAcc where
  branchMap : List (String × Pipeline)
  branchCounts : String → Nat
  triggeredCount : Nat

/-- One iteration of the partition loop in `useBranches`: a branchless
pipeline bumps the triggered count; otherwise the branch's running count is
bumped and the pipeline is recorded only when the branch is new (the map keeps
the first-seen pipeline; the count update leaves `branchMap` untouched, so the
`has` test may read the original map). -/
def branchStep (acc : BranchAcc) (p : Pipeline) : BranchAcc :=
  if truthy p.branch = false then
    { acc with triggeredCount := acc.triggeredCount + 1 }
  else if mapHas acc.branchMap (p.branch.getD "") then
    { acc with branchCounts := fun s =>
        if s = p.branch.getD "" then acc.branchCounts (p.branch.getD "") + 1
        else acc.branchCounts s }
  else
    { acc with
      branchCounts := fun s =>
        if s = p.branch.getD "" then acc.branchCounts (p.branch.getD "") + 1
        else acc.branchCounts s,
      branchMap := acc.branchMap ++ [(p.branch.getD "", p)] }

def branchScan (ps : List Pipeline) : BranchAcc :=
  ps.foldl branchStep ⟨[], fun _ => 0, 0⟩

structure BranchSummary where
  name : String
  latestPipeline : Pipeline
  latestWorkflowStatus : Option String
  recentPipelineCount : Nat
deriving DecidableEq, Repr

/-- The sort rank used by `useBranches`: 0 when a truthy status is active. -/
def activeRank (b : BranchSummary) : Nat :=
  match b.latestWorkflowStatus with
  | some s => if s ≠ "" ∧ isActiveStatus s = true then 0 else 1
  | none => 1

/-- `cmp(a, b) ≤ 0` for the final sort comparator of `useBranches`:
active-status branches first, then creation time descending. -/
def branchLe (a b : BranchSummary) : Prop :=
  activeRank a < activeRank b ∨
    (activeRank a = activeRank b ∧
      b.latestPipeline.created_at ≤ a.latestPipeline.created_at)

instance : DecidableRel branchLe := fun a b => by
  unfold branchLe
  exact inferInstance

/-- One summary of the fan-out in `useBranches`: resolve the branch's worst
workflow status (omitted when the fetch fails) and attach the running count
(`branchCounts.get(name) ?? 1`; in the extensional count model an absent key
reads 0, which is exactly the case the `?? 1` default covers). -/
def mkSummary (counts : String → Nat)
    (getWorkflows : String → Option (List Workflow))
    (e : String × Pipeline) : BranchSummary :=
  match getWorkflows e.2.id with
  | some workflows =>
    ⟨e.1, e.2, aggregateWorkflowStatus workflows,
      if counts e.1 = 0 then 1 else counts e.1⟩
  | none => ⟨e.1, e.2, none, if counts e.1 = 0 then 1 else counts e.1⟩

/-- The pure core of `useBranches`.  The per-branch workflow fetch is an
oracle from pipeline id to its workflow list; `none` models a failed fetch,
whose summary omits the status (the `catch` branch).  Batching in groups of 6
preserves entry order, so the batched fan-out is a plain map; the stable
`Array.prototype.sort` is `insertionSort`. -/
def useBranchesCore (ps : List Pipeline)
    (getWorkflows : String → Option (List Workflow)) :
    List BranchSummary × Nat :=
  let acc := branchScan ps
  let branches := acc.branchMap.map (mkSummary acc.branchCounts getWorkflows)
  (List.insertionSort branchLe branches, acc.triggeredCount)

theorem branchScan_append (ps : List Pipeline) (p : Pipeline) :
    branchScan (ps ++ [p]) = branchStep (branchScan ps) p := by
  unfold branchScan
  rw [List.foldl_append]
  rfl

theorem find?_append_eq {α : Type} (l1 l2 : List α) (p : α → Bool) :
    (l1 ++ l2).find? p =
      match l1.find? p with
      | some a => some a
      | none => l2.find? p := by
  induction l1 with
  | nil => simp
  | cons a tl ih =>
    by_cases h : p a
    · simp [List.find?_cons_of_pos _ h]
    · simpa [List.find?_cons_of_neg _ (by simpa using h)] using ih

theorem mapHas_iff_keys {α : Type} (m : List (String × α)) (k : String) :
    mapHas m k = true ↔ k ∈ m.map Prod.fst := by
  unfold mapHas
  rw [List.any_eq_true]
  constructor
  · rintro ⟨e, he, hk⟩
    exact List.mem_map.mpr ⟨e, he, by simpa using hk⟩
  · intro hk
    obtain ⟨e, he, hk⟩ := List.mem_map.mp hk
    exact ⟨e, he, by simpa using hk⟩

theorem mapHas_iff_isSome {α : Type} (m : List (String × α)) (k : String) :
    mapHas m k = true ↔ (mapGet? m k).isSome = true := by
  unfold mapHas mapGet?
  rw [List.any_eq_true]
  constructor
  · intro hex
    have hs : (List.find? (fun e => decide (e.1 = k)) m).isSome = true :=
      List.find?_isSome.mpr hex
    cases hf : List.find? (fun e => decide (e.1 = k)) m with
    | none => rw [hf] at hs; cases hs
    | some e => rfl
  · intro hs
    cases hf : List.find? (fun e => decide (e.1 = k)) m with
    | none => rw [hf] at hs; cases hs
    | some e =>
      have hb := List.find?_some hf
      exact ⟨e, List.mem_of_find?_eq_some hf, hb⟩

theorem mapGet?_of_mem_nodup {α : Type} (m : List (String × α)) (e : String × α)
    (hnd : (m.map Prod.fst).Nodup) (hm : e ∈ m) : mapGet? m e.1 = some e.2 := by
  induction m with
  | nil => cases hm
  | cons a tl ih =>
    rw [List.map_cons] at hnd
    have hand := List.nodup_cons.mp hnd
    rcases List.mem_cons.mp hm with rfl | hm'
    · unfold mapGet?
      rw [List.find?_cons_of_pos _ (by simp)]
      rfl
    ·
      have ha : ¬ (a.1 = e.1) := by
        intro h
        exact hand.1 (h ▸ List.mem_map.mpr ⟨e, hm', rfl⟩)
      unfold mapGet?
      rw [List.find?_cons_of_neg _ (by simpa using ha)]
      exact ih hand.2 hm'

theorem countP_key_nodup {α : Type} (m : List (String × α)) (s : String)
    (hnd : (m.map Prod.fst).Nodup) :
    m.countP (fun e => e.1 = s) = if s ∈ m.map Prod.fst then 1 else 0 := by
  induction m with
  | nil => simp
  | cons a tl ih =>
    rw [List.map_cons] at hnd
    have hand := List.nodup_cons.mp hnd
    by_cases h : a.1 = s
    · have hnot : s ∉ tl.map Prod.fst := h ▸ hand.1
      rw [List.countP_cons_of_pos _ _ (by simpa using h)]
      rw [ih hand.2, if_neg hnot, if_pos (by simp [← h])]
    · rw [List.countP_cons_of_neg _ _ (by simpa using h)]
      rw [ih hand.2]
      by_cases hs : s ∈ tl.map Prod.fst
      · rw [if_pos hs, if_pos (by simp [hs])]
      · rw [if_neg hs, if_neg (by simp [hs, Ne.symm h])]

theorem mapGet?_append_single {α : Type} (m : List (String × α)) (k : String)
    (v : α) (s : String) :
    mapGet? (m ++ [(k, v)]) s =
      match mapGet? m s with
      | some x => some x
      | none => if s = k then some v else none := by
  unfold mapGet?
  rw [find?_append_eq]
  cases List.find? (fun e => e.1 = s) m with
  | none =>
    by_cases h : k = s
    · simp [List.find?, h]
    · simp [List.find?, h]
      rw [if_neg (fun hs => h hs.symm)]
  | some e => simp

theorem branchScan_props (ps : List Pipeline) :
    (branchScan ps).triggeredCount = ps.countP (fun p => truthy p.branch = false) ∧
    (∀ s : String, s ≠ "" →
      (branchScan ps).branchCounts s = ps.countP (fun p => p.branch = some s)) ∧
    (∀ s : String, s ≠ "" →
      mapGet? (branchScan ps).branchMap s = ps.find? (fun p => p.branch = some s)) ∧
    ((branchScan ps).branchMap.map Prod.fst).Nodup ∧
    (∀ k ∈ (branchScan ps).branchMap.map Prod.fst, k ≠ "") := by
  induction ps using List.reverseRecOn with
  | nil =>
    refine ⟨rfl, fun s _ => rfl, fun s _ => rfl, List.nodup_nil, ?_⟩
    intro k hk
    simp [branchScan] at hk
  | append_singleton ps p ih =>
    obtain ⟨ih1, ih2, ih3, ih4, ih5⟩ := ih
    rw [branchScan_append]
    by_cases hb : truthy p.branch = false
    · unfold branchStep
      rw [if_pos hb]
      refine ⟨?_, ?_, ?_, ih4, ih5⟩
      · rw [List.countP_append]
        simp [ih1, hb]
      · intro s hs
        have hnp : ¬ (p.branch = some s) := by
          intro h
          rw [h] at hb
          simp [truthy] at hb
          exact hs hb
        rw [List.countP_append]
        simp [ih2 s hs, hnp]
      · intro s hs
        have hnp : ¬ (p.branch = some s) := by
          intro h
          rw [h] at hb
          simp [truthy] at hb
          exact hs hb
        rw [find?_append_eq, ih3 s hs]
        cases ps.find? (fun p => p.branch = some s) with
        | none => simp [List.find?, hnp]
        | some q => simp
    · rw [Bool.not_eq_false] at hb
      obtain ⟨bs, hbs, hbsne⟩ : ∃ bs, p.branch = some bs ∧ bs ≠ "" := by
        cases hpb : p.branch with
        | none => rw [hpb] at hb; simp [truthy] at hb
        | some s0 =>
          rw [hpb] at hb
          simp [truthy] at hb
          exact ⟨s0, rfl, hb⟩
      have hget : p.branch.getD "" = bs := by rw [hbs]; rfl
      have htrig : ∀ (acc : BranchAcc),
          (branchStep acc p).triggeredCount = acc.triggeredCount := by
        intro acc
        unfold branchStep
        rw [if_neg (by simp [hb])]
        by_cases hhas : mapHas acc.branchMap (p.branch.getD "") = true
        · rw [if_pos hhas]
        · rw [if_neg hhas]
      have hcounts : ∀ (acc : BranchAcc) (s : String),
          (branchStep acc p).branchCounts s =
            if s = bs then acc.branchCounts bs + 1 else acc.branchCounts s := by
        intro acc s
        unfold branchStep
        rw [if_neg (by simp [hb])]
        by_cases hhas : mapHas acc.branchMap (p.branch.getD "") = true
        · rw [if_pos hhas]
          simp [hget]
        · rw [if_neg hhas]
          simp [hget]
      refine ⟨?_, ?_, ?_, ?_, ?_⟩
      · rw [htrig, List.countP_append, ih1]
        simp [hb]
      · intro s hs
        rw [hcounts, List.countP_append, List.countP_cons]
        by_cases hsb : s = bs
        · subst hsb
          rw [if_pos rfl, ih2 s hs]
          simp [hbs]
        · rw [if_neg hsb, ih2 s hs]
          have : ¬ (p.branch = some s) := by
            rw [hbs]
            intro h
            exact hsb (by injection h with h2; exact h2.symm)
          simp [this]
      · intro s hs
        unfold branchStep
        rw [if_neg (by simp [hb])]
        rw [find?_append_eq]
        by_cases hhas : mapHas (branchScan ps).branchMap (p.branch.getD "") = true
        · rw [if_pos hhas]
          show mapGet? (branchScan ps).branchMap s = _
          rw [ih3 s hs]
          by_cases hsb : s = bs
          · subst hsb
            have hsome : (mapGet? (branchScan ps).branchMap s).isSome = true :=
              (mapHas_iff_isSome _ _).mp (by rwa [hget] at hhas)
            rw [ih3 s hs] at hsome
            cases hf : ps.find? (fun p => p.branch = some s) with
            | none => rw [hf] at hsome; cases hsome
            | some q => simp
          · have hnp : ¬ (p.branch = some s) := by
              rw [hbs]
              intro h
              exact hsb (by injection h with h2; exact h2.symm)
            cases ps.find? (fun p => p.branch = some s) with
            | none => simp [List.find?, hnp]
            | some q => simp
        · rw [if_neg hhas]
          show mapGet? ((branchScan ps).branchMap ++ [(p.branch.getD "", p)]) s = _
          rw [mapGet?_append_single, ih3 s hs, hget]
          by_cases hsb : s = bs
          · subst hsb
            have hnone : mapGet? (branchScan ps).branchMap s = none := by
              cases hg : mapGet? (branchScan ps).branchMap s with
              | none => rfl
              | some x =>
                exact absurd ((mapHas_iff_isSome _ _).mpr (by rw [hg]; rfl))
                  (by rwa [hget] at hhas)
            rw [ih3 s hs] at hnone
            rw [hnone]
            simp [List.find?, hbs]
          · have hnp : ¬ (p.branch = some s) := by
              rw [hbs]
              intro h
              exact hsb (by injection h with h2; exact h2.symm)
            cases ps.find? (fun p => p.branch = some s) with
            | none => simp [List.find?, hnp, hsb]
            | some q => simp
      · unfold branchStep
        rw [if_neg (by simp [hb])]
        by_cases hhas : mapHas (branchScan ps).branchMap (p.branch.getD "") = true
        · rw [if_pos hhas]
          exact ih4
        · rw [if_neg hhas]
          show ((((branchScan ps).branchMap) ++ [(p.branch.getD "", p)]).map Prod.fst).Nodup
          rw [List.map_append]
          have hbsnot : bs ∉ (branchScan ps).branchMap.map Prod.fst := by
            intro hmem
            exact hhas (by rw [hget]; exact (mapHas_iff_keys _ _).mpr hmem)
          simp [List.nodup_append, ih4, hget, hbsnot]
      · unfold branchStep
        rw [if_neg (by simp [hb])]
        by_cases hhas : mapHas (branchScan ps).branchMap (p.branch.getD "") = true
        · rw [if_pos hhas]
          exact ih5
        · rw [if_neg hhas]
          intro k hk
          show k ≠ ""
          rw [List.map_append] at hk
          rcases List.mem_append.mp hk with hk1 | hk2
          · exact ih5 k hk1
          · rw [hget] at hk2
            simp at hk2
            rw [hk2]
            exact hbsne

theorem mkSummary_name (c : String → Nat) (gw : String → Option (List Workflow))
    (e : String × Pipeline) : (mkSummary c gw e).name = e.1 := by
  unfold mkSummary
  cases gw e.2.id <;> rfl

theorem mkSummary_pipeline (c : String → Nat)
    (gw : String → Option (List Workflow)) (e : String × Pipeline) :
    (mkSummary c gw e).latestPipeline = e.2 := by
  unfold mkSummary
  cases gw e.2.id <;> rfl

theorem mkSummary_count (c : String → Nat)
    (gw : String → Option (List Workflow)) (e : String × Pipeline) :
    (mkSummary c gw e).recentPipelineCount = if c e.1 = 0 then 1 else c e.1 := by
  unfold mkSummary
  cases gw e.2.id <;> rfl

/-- C7: the branch summarizer produces exactly one summary per distinct branch
name among branch-bound pipelines, each referencing the first-seen (most
recent, for reverse-chronological input) pipeline of that branch and carrying
the count of all pipelines seen for that branch, while branchless pipelines
are counted separately as triggered; 3 "main" pipelines and 2 "dev" pipelines
(newest first) yield exactly the two summaries, with "main" having
`recentPipelineCount = 3`. -/
theorem useBranches_spec (ps : List Pipeline)
    (gw : String → Option (List Workflow)) :
    (useBranchesCore ps gw).2 = ps.countP (fun p => truthy p.branch = false) ∧
    (∀ s : String, s ≠ "" →
      (useBranchesCore ps gw).1.countP (fun b => b.name = s) =
        if ps.any (fun p => p.branch = some s) then 1 else 0) ∧
    (∀ b ∈ (useBranchesCore ps gw).1,
      b.name ≠ "" ∧
      ps.find? (fun p => p.branch = some b.name) = some b.latestPipeline ∧
      b.recentPipelineCount = ps.countP (fun p => p.branch = some b.name)) ∧
    (useBranchesCore
        [Pipeline.mk "m1" 1 50 (some "main") none "r1" none "webhook",
         Pipeline.mk "d1" 2 45 (some "dev") none "r2" none "webhook",
         Pipeline.mk "m2" 3 40 (some "main") none "r3" none "webhook",
         Pipeline.mk "d2" 4 35 (some "dev") none "r4" none "webhook",
         Pipeline.mk "m3" 5 30 (some "main") none "r5" none "webhook"]
        (fun _ => none)).1.map
        (fun b => (b.name, b.latestPipeline.id, b.recentPipelineCount)) =
      [("main", "m1", 3), ("dev", "d1", 2)] := by
  obtain ⟨h1, h2, h3, h4, h5⟩ := branchScan_props ps
  have hfst : (useBranchesCore ps gw).1 = List.insertionSort branchLe
      ((branchScan ps).branchMap.map
        (mkSummary (branchScan ps).branchCounts gw)) := rfl
  refine ⟨h1, ?_, ?_, ?_⟩
  · intro s hs
    rw [hfst]
    rw [(List.perm_insertionSort branchLe _).countP_eq]
    rw [List.countP_map]
    have hcongr : ∀ e ∈ (branchScan ps).branchMap,
        (((fun b => decide (b.name = s)) ∘
          mkSummary (branchScan ps).branchCounts gw) e = true ↔
          decide (e.1 = s) = true) := by
      intro e he
      simp [Function.comp, mkSummary_name]
    rw [List.countP_congr hcongr]
    rw [countP_key_nodup _ _ h4]
    have hiff : s ∈ (branchScan ps).branchMap.map Prod.fst ↔
        ps.any (fun p => p.branch = some s) = true := by
      rw [← mapHas_iff_keys, mapHas_iff_isSome, h3 s hs, List.any_eq_true,
        ← List.find?_isSome]
    by_cases hany : ps.any (fun p => p.branch = some s) = true
    · rw [if_pos (hiff.mpr hany), if_pos hany]
    · rw [if_neg (fun hmem => hany (hiff.mp hmem)), if_neg hany]
  · intro b hb
    rw [hfst] at hb
    have hb2 : b ∈ (branchScan ps).branchMap.map
        (mkSummary (branchScan ps).branchCounts gw) :=
      ((List.perm_insertionSort branchLe _).mem_iff).mp hb
    obtain ⟨e, he, rfl⟩ := List.mem_map.mp hb2
    have hne : e.1 ≠ "" := h5 e.1 (List.mem_map.mpr ⟨e, he, rfl⟩)
    have hget : mapGet? (branchScan ps).branchMap e.1 = some e.2 :=
      mapGet?_of_mem_nodup _ e h4 he
    have hfind : ps.find? (fun p => p.branch = some e.1) = some e.2 := by
      rw [← h3 e.1 hne]
      exact hget
    have hcount0 : 0 < ps.countP (fun p => p.branch = some e.1) := by
      rw [List.countP_pos_iff]
      have hp := List.find?_some hfind
      exact ⟨e.2, List.mem_of_find?_eq_some hfind, hp⟩
    refine ⟨?_, ?_, ?_⟩
    · rw [mkSummary_name]
      exact hne
    · rw [mkSummary_name, mkSummary_pipeline]
      exact hfind
    · rw [mkSummary_name, mkSummary_count]
      rw [h2 e.1 hne]
      rw [if_neg (by omega)]
  · decide

theorem useBranches_spec_witness :
    (useBranchesCore
        [Pipeline.mk "m1" 1 50 (some "main") none "r1" none "webhook",
         Pipeline.mk "d1" 2 45 (some "dev") none "r2" none "webhook",
         Pipeline.mk "m2" 3 40 (some "main") none "r3" none "webhook",
         Pipeline.mk "d2" 4 35 (some "dev") none "r4" none "webhook",
         Pipeline.mk "m3" 5 30 (some "main") none "r5" none "webhook"]
        (fun _ => none)).1.countP (fun b => b.name = "main") = 1 :=
  ((useBranches_spec
      [Pipeline.mk "m1" 1 50 (some "main") none "r1" none "webhook",
       Pipeline.mk "d1" 2 45 (some "dev") none "r2" none "webhook",
       Pipeline.mk "m2" 3 40 (some "main") none "r3" none "webhook",
       Pipeline.mk "d2" 4 35 (some "dev") none "r4" none "webhook",
       Pipeline.mk "m3" 5 30 (some "main") none "r5" none "webhook"]
      (fun _ => none)).2.1 "main" (by decide)).trans (by decide)

/-! ### Trigger grouping (`buildGroups` in the Triggers page) -/

/-- A triggered pipeline with its resolved workflow status. -/
structure TriggeredPipeline where
  pipeline : Pipeline
  workflowStatus : Option String
  triggerLabel : String
deriving DecidableEq, Repr

/-- A group of triggered pipelines sharing a tag or commit SHA. -/
structure TriggerGroup where
  key : String
  label : String
  sublabel : String
  items : List TriggeredPipeline
  latestCreatedAt : Int
  worstStatus : Option String
deriving DecidableEq, Repr

/-- Group key: tag takes priority, otherwise commit SHA. -/
def groupKeyOf (p : Pipeline) : String :=
  if truthy p.tag then "tag:" ++ p.tag.getD "" else "sha:" ++ p.revision

def groupLabelOf (p : Pipeline) : String :=
  if truthy p.tag then p.tag.getD "" else shortSha p.revision

def groupSublabelOf (p : Pipeline) : String :=
  if truthy p.tag then
    "Tag — " ++ shortSha p.revision ++
      (if truthy p.commit_subject
       then " — " ++ truncate (p.commit_subject.getD "") 60 else "")
  else if truthy p.commit_subject then truncate (p.commit_subject.getD "") 70
  else "No commit message"

/-- The three in-place mutations `buildGroups` applies to a member's group:
push the item, raise `latestCreatedAt` on strict improvement, and fold the
member's (truthy) status into `worstStatus` via `pickWorstStatus`. -/
def applyItem (t : TriggeredPipeline) (g : TriggerGroup) : TriggerGroup :=
  { g with
    items := g.items ++ [t],
    latestCreatedAt :=
      if t.pipeline.created_at > g.latestCreatedAt
      then t.pipeline.created_at else g.latestCreatedAt,
    worstStatus :=
      if truthy t.workflowStatus then
        (if truthy g.worstStatus
         then some (pickWorstStatus (g.worstStatus.getD "")
            (t.workflowStatus.getD ""))
         else t.workflowStatus)
      else g.worstStatus }

/-- In-place update of the group stored under `key` (JS object mutation keeps
the map position). -/
def mapUpdate (m : List (String × TriggerGroup)) (key : String)
    (f : TriggerGroup → TriggerGroup) : List (String × TriggerGroup) :=
  m.map (fun e => if e.1 = key then (e.1, f e.2) else e)

/-- One iteration of the grouping loop: create the group on first sight of a
key, then apply the member's mutations. -/
def groupStep (m : List (String × TriggerGroup)) (t : TriggeredPipeline) :
    List (String × TriggerGroup) :=
  mapUpdate
    (if mapHas m (groupKeyOf t.pipeline) then m
     else m ++ [(groupKeyOf t.pipeline,
       ⟨groupKeyOf t.pipeline, groupLabelOf t.pipeline,
        groupSublabelOf t.pipeline, [], t.pipeline.created_at, none⟩)])
    (groupKeyOf t.pipeline) (applyItem t)

def groupScan (items : List TriggeredPipeline) :
    List (String × TriggerGroup) :=
  items.foldl groupStep []

/-- Sort comparator for groups: most recent first. -/
def groupGe (a b : TriggerGroup) : Prop :=
  b.latestCreatedAt ≤ a.latestCreatedAt

instance : DecidableRel groupGe := fun a b => by
  unfold groupGe
  exact inferInstance

instance : IsTotal TriggerGroup groupGe :=
  ⟨fun a b => by
    unfold groupGe
    exact le_total _ _⟩

instance : IsTrans TriggerGroup groupGe :=
  ⟨fun _ _ _ h1 h2 => by
    unfold groupGe at h1 h2 ⊢
    exact le_trans h2 h1⟩

/-- Sort comparator for members within a group: newest first. -/
def itemGe (a b : TriggeredPipeline) : Prop :=
  b.pipeline.created_at ≤ a.pipeline.created_at

instance : DecidableRel itemGe := fun a b => by
  unfold itemGe
  exact inferInstance

instance : IsTotal TriggeredPipeline itemGe :=
  ⟨fun a b => by
    unfold itemGe
    exact le_total _ _⟩

instance : IsTrans TriggeredPipeline itemGe :=
  ⟨fun _ _ _ h1 h2 => by
    unfold itemGe at h1 h2 ⊢
    exact le_trans h2 h1⟩

/-- `buildGroups` from the Triggers page. -/
def buildGroups (items : List TriggeredPipeline) : List TriggerGroup :=
  (List.insertionSort groupGe ((groupScan items).map Prod.snd)).map
    (fun g => { g with items := List.insertionSort itemGe g.items })

theorem groupScan_append (items : List TriggeredPipeline)
    (t : TriggeredPipeline) :
    groupScan (items ++ [t]) = groupStep (groupScan items) t := by
  unfold groupScan
  rw [List.foldl_append]
  rfl

theorem mapUpdate_keys (m : List (String × TriggerGroup)) (k : String)
    (f : TriggerGroup → TriggerGroup) :
    (mapUpdate m k f).map Prod.fst = m.map Prod.fst := by
  unfold mapUpdate
  rw [List.map_map]
  apply List.map_congr_left
  intro e _
  by_cases h : e.1 = k <;> simp [h]

theorem mapHas_mapUpdate (m : List (String × TriggerGroup)) (k : String)
    (f : TriggerGroup → TriggerGroup) (s : String) :
    mapHas (mapUpdate m k f) s = mapHas m s := by
  have h1 := mapHas_iff_keys (mapUpdate m k f) s
  have h2 := mapHas_iff_keys m s
  rw [mapUpdate_keys] at h1
  cases hb : mapHas m s with
  | false =>
    cases hb2 : mapHas (mapUpdate m k f) s with
    | false => rfl
    | true => exact absurd (h2.mpr (h1.mp hb2)) (by simp [hb])
  | true =>
    cases hb2 : mapHas (mapUpdate m k f) s with
    | false => exact absurd (h1.mpr (h2.mp hb)) (by simp [hb2])
    | true => rfl

theorem mapUpdate_not_has (m : List (String × TriggerGroup)) (k : String)
    (f : TriggerGroup → TriggerGroup) (h : mapHas m k = false) :
    mapUpdate m k f = m := by
  unfold mapUpdate
  unfold mapHas at h
  rw [List.any_eq_false] at h
  have : ∀ e ∈ m, (if e.1 = k then (e.1, f e.2) else e) = e := by
    intro e he
    rw [if_neg (by simpa using h e he)]
  rw [List.map_congr_left this]
  simp

theorem applyItem_key (t : TriggeredPipeline) (g : TriggerGroup) :
    (applyItem t g).key = g.key := rfl

theorem groupScan_props (items : List TriggeredPipeline) :
    ((groupScan items).map Prod.fst).Nodup ∧
    (∀ s : String, mapHas (groupScan items) s =
        items.any (fun t => groupKeyOf t.pipeline = s)) ∧
    (∀ e ∈ groupScan items,
      e.2.key = e.1 ∧
      e.2.items = items.filter (fun t => groupKeyOf t.pipeline = e.1) ∧
      e.2.latestCreatedAt ∈ e.2.items.map (fun t => t.pipeline.created_at) ∧
      (∀ t ∈ e.2.items, t.pipeline.created_at ≤ e.2.latestCreatedAt)) := by
  induction items using List.reverseRecOn with
  | nil =>
    refine ⟨by simp [groupScan], fun s => rfl, ?_⟩
    intro e he
    simp [groupScan] at he
  | append_singleton items t ih =>
    obtain ⟨ih1, ih2, ih3⟩ := ih
    rw [groupScan_append]
    have hkeyt : ∀ s, (items ++ [t]).any (fun u => groupKeyOf u.pipeline = s) =
        (items.any (fun u => groupKeyOf u.pipeline = s) ||
          decide (groupKeyOf t.pipeline = s)) := by
      intro s
      rw [List.any_append]
      simp
    by_cases hhas : mapHas (groupScan items) (groupKeyOf t.pipeline) = true
    · have hstep : groupStep (groupScan items) t =
          mapUpdate (groupScan items) (groupKeyOf t.pipeline) (applyItem t) := by
        unfold groupStep
        rw [if_pos hhas]
      rw [hstep]
      refine ⟨?_, ?_, ?_⟩
      · rw [mapUpdate_keys]
        exact ih1
      · intro s
        rw [mapHas_mapUpdate, hkeyt s]
        by_cases hsk : groupKeyOf t.pipeline = s
        · rw [← hsk] at *
          simp [hhas]
        · simp [hsk, ih2 s]
      · intro e' he'
        unfold mapUpdate at he'
        obtain ⟨e, he, heq⟩ := List.mem_map.mp he'
        obtain ⟨hekey, heitems, hemem, heub⟩ := ih3 e he
        by_cases hek : e.1 = groupKeyOf t.pipeline
        · rw [if_pos hek] at heq
          subst heq
          have hfil : (items ++ [t]).filter
              (fun u => groupKeyOf u.pipeline = e.1) =
              items.filter (fun u => groupKeyOf u.pipeline = e.1) ++ [t] := by
            rw [List.filter_append]
            simp [hek.symm]
          refine ⟨by rw [applyItem_key]; exact hekey, ?_, ?_, ?_⟩
          · show (applyItem t e.2).items = _
            unfold applyItem
            rw [hfil]
            simp [heitems]
          · show (applyItem t e.2).latestCreatedAt ∈
              ((applyItem t e.2).items.map (fun u => u.pipeline.created_at))
            unfold applyItem
            simp only [List.map_append]
            by_cases hgt : t.pipeline.created_at > e.2.latestCreatedAt
            · rw [if_pos hgt]
              simp
            · rw [if_neg hgt]
              exact List.mem_append_left _ hemem
          · intro u hu
            show u.pipeline.created_at ≤ (applyItem t e.2).latestCreatedAt
            unfold applyItem at hu ⊢
            simp only at hu ⊢
            rcases List.mem_append.mp hu with hu1 | hu2
            · have := heub u hu1
              by_cases hgt : t.pipeline.created_at > e.2.latestCreatedAt
              · rw [if_pos hgt]; omega
              · rw [if_neg hgt]; omega
            · simp at hu2
              subst hu2
              by_cases hgt : u.pipeline.created_at > e.2.latestCreatedAt
              · rw [if_pos hgt]
              · rw [if_neg hgt]; omega
        · rw [if_neg hek] at heq
          subst heq
          have hfil : (items ++ [t]).filter
              (fun u => groupKeyOf u.pipeline = e.1) =
              items.filter (fun u => groupKeyOf u.pipeline = e.1) := by
            rw [List.filter_append]
            have hne : ¬ (groupKeyOf t.pipeline = e.1) := fun h => hek h.symm
            simp [hne]
          rw [hfil]
          exact ⟨hekey, heitems, hemem, heub⟩
    · have hknot : mapHas (groupScan items) (groupKeyOf t.pipeline) = false := by
        simpa using hhas
      have hstep : groupStep (groupScan items) t =
          groupScan items ++ [(groupKeyOf t.pipeline,
            applyItem t ⟨groupKeyOf t.pipeline, groupLabelOf t.pipeline,
              groupSublabelOf t.pipeline, [], t.pipeline.created_at, none⟩)] := by
        unfold groupStep
        rw [if_neg hhas]
        unfold mapUpdate
        rw [List.map_append]
        have hid : ∀ e ∈ groupScan items,
            (if e.1 = groupKeyOf t.pipeline
             then (e.1, applyItem t e.2) else e) = e := by
          intro e he
          unfold mapHas at hknot
          rw [List.any_eq_false] at hknot
          rw [if_neg (by simpa using hknot e he)]
        rw [List.map_congr_left hid]
        simp
      rw [hstep]
      have hnomem : items.any
          (fun u => groupKeyOf u.pipeline = groupKeyOf t.pipeline) = false := by
        rw [← ih2]
        exact hknot
      refine ⟨?_, ?_, ?_⟩
      · rw [List.map_append]
        have hknotin : groupKeyOf t.pipeline ∉
            (groupScan items).map Prod.fst := by
          intro hmem
          rw [(mapHas_iff_keys _ _).mpr hmem] at hknot
          cases hknot
        simp [List.nodup_append, ih1, hknotin]
      · intro s
        unfold mapHas
        rw [List.any_append, hkeyt s]
        have : mapHas (groupScan items) s =
            items.any (fun u => groupKeyOf u.pipeline = s) := ih2 s
        unfold mapHas at this
        rw [this]
        simp
      · intro e' he'
        rcases List.mem_append.mp he' with he1 | he2
        · obtain ⟨hekey, heitems, hemem, heub⟩ := ih3 e' he1
          have hek : groupKeyOf t.pipeline ≠ e'.1 := by
            intro h
            rw [List.any_eq_false] at hnomem
            have he1k : e'.1 ∈ (groupScan items).map Prod.fst :=
              List.mem_map.mpr ⟨e', he1, rfl⟩
            rw [← h] at he1k
            rw [(mapHas_iff_keys _ _).mpr he1k] at hknot
            cases hknot
          have hfil : (items ++ [t]).filter
              (fun u => groupKeyOf u.pipeline = e'.1) =
              items.filter (fun u => groupKeyOf u.pipeline = e'.1) := by
            rw [List.filter_append]
            simp [hek]
          rw [hfil]
          exact ⟨hekey, heitems, hemem, heub⟩
        · simp only [List.mem_singleton] at he2
          subst he2
          have hfil : (items ++ [t]).filter
              (fun u => groupKeyOf u.pipeline = groupKeyOf t.pipeline) = [t] := by
            rw [List.filter_append]
            rw [List.filter_eq_nil_iff.mpr (by
              intro u hu
              rw [List.any_eq_false] at hnomem
              simpa using hnomem u hu)]
            simp
          refine ⟨rfl, ?_, ?_, ?_⟩
          · show (applyItem t _).items = _
            unfold applyItem
            simp only
            rw [hfil]
            simp
          · show (applyItem t _).latestCreatedAt ∈ _
            unfold applyItem
            simp only
            by_cases hgt : t.pipeline.created_at > t.pipeline.created_at
            · rw [if_pos hgt]
              simp
            · rw [if_neg hgt]
              simp
          · intro u hu
            show u.pipeline.created_at ≤ (applyItem t _).latestCreatedAt
            unfold applyItem at hu ⊢
            simp only at hu ⊢
            simp at hu
            subst hu
            by_cases hgt : u.pipeline.created_at > u.pipeline.created_at
            · rw [if_pos hgt]
            · rw [if_neg hgt]

theorem group_key_inj (l : List TriggerGroup)
    (hnd : (l.map (fun g => g.key)).Nodup) (g1 g2 : TriggerGroup)
    (h1 : g1 ∈ l) (h2 : g2 ∈ l) (hk : g1.key = g2.key) : g1 = g2 := by
  induction l with
  | nil => cases h1
  | cons a tl ih =>
    rw [List.map_cons] at hnd
    have hand := List.nodup_cons.mp hnd
    rcases List.mem_cons.mp h1 with rfl | h1'
    · rcases List.mem_cons.mp h2 with rfl | h2'
      · rfl
      · exact absurd (hk ▸ List.mem_map.mpr ⟨g2, h2', rfl⟩) hand.1
    · rcases List.mem_cons.mp h2 with rfl | h2'
      · exact absurd (hk ▸ List.mem_map.mpr ⟨g1, h1', rfl⟩) hand.1
      · exact ih hand.2 h1' h2'

/-- C8: `buildGroups` assigns each triggered pipeline to exactly one group,
whose key is `tag:<tag>` when the pipeline carries a (truthy) tag and
`sha:<revision>` otherwise — so pipelines sharing a tag land in one group
regardless of revisions; each group's `latestCreatedAt` is the maximum
creation time among its members; groups are ordered newest-first by that
timestamp; and members within a group are ordered newest-first. -/
theorem buildGroups_spec (items : List TriggeredPipeline) :
    (∀ t ∈ items, ∃ g ∈ buildGroups items,
        g.key = groupKeyOf t.pipeline ∧ t ∈ g.items) ∧
    (∀ g ∈ buildGroups items, ∀ t ∈ g.items,
        t ∈ items ∧ g.key = groupKeyOf t.pipeline) ∧
    ((buildGroups items).map (fun g => g.key)).Nodup ∧
    (∀ g1 ∈ buildGroups items, ∀ g2 ∈ buildGroups items,
        ∀ t : TriggeredPipeline, t ∈ g1.items → t ∈ g2.items → g1 = g2) ∧
    (∀ g ∈ buildGroups items,
        g.latestCreatedAt ∈ g.items.map (fun t => t.pipeline.created_at) ∧
        ∀ t ∈ g.items, t.pipeline.created_at ≤ g.latestCreatedAt) ∧
    (buildGroups items).Pairwise groupGe ∧
    (∀ g ∈ buildGroups items, g.items.Pairwise itemGe) ∧
    (∀ t1 ∈ items, ∀ t2 ∈ items, truthy t1.pipeline.tag = true →
        t1.pipeline.tag = t2.pipeline.tag →
        ∀ g1 ∈ buildGroups items, ∀ g2 ∈ buildGroups items,
          t1 ∈ g1.items → t2 ∈ g2.items →
          g1 = g2 ∧ g1.key = "tag:" ++ t1.pipeline.tag.getD "") := by
  obtain ⟨hnd, hhas, hmem⟩ := groupScan_props items
  have hbg : buildGroups items =
      (List.insertionSort groupGe ((groupScan items).map Prod.snd)).map
        (fun g => { g with items := List.insertionSort itemGe g.items }) := rfl
  -- membership characterization
  have hchar : ∀ g, g ∈ buildGroups items ↔
      (∃ e ∈ groupScan items,
        g = { e.2 with items := List.insertionSort itemGe e.2.items }) := by
    intro g
    rw [hbg]
    constructor
    · intro h
      obtain ⟨g0, hg0, rfl⟩ := List.mem_map.mp h
      have hg0' : g0 ∈ (groupScan items).map Prod.snd :=
        (List.perm_insertionSort groupGe _).mem_iff.mp hg0
      obtain ⟨e, he, rfl⟩ := List.mem_map.mp hg0'
      exact ⟨e, he, rfl⟩
    · rintro ⟨e, he, rfl⟩
      exact List.mem_map.mpr ⟨e.2,
        (List.perm_insertionSort groupGe _).mem_iff.mpr
          (List.mem_map.mpr ⟨e, he, rfl⟩), rfl⟩
  -- per-group facts
  have hgroup : ∀ g ∈ buildGroups items, ∃ e ∈ groupScan items,
      g.key = e.1 ∧ g.latestCreatedAt = e.2.latestCreatedAt ∧
      g.items.Perm (items.filter (fun t => groupKeyOf t.pipeline = e.1)) ∧
      g.items.Pairwise itemGe := by
    intro g hg
    obtain ⟨e, he, rfl⟩ := (hchar g).mp hg
    obtain ⟨hekey, heitems, _, _⟩ := hmem e he
    refine ⟨e, he, hekey, rfl, ?_, ?_⟩
    · show (List.insertionSort itemGe e.2.items).Perm _
      rw [← heitems]
      exact List.perm_insertionSort itemGe _
    · show (List.insertionSort itemGe e.2.items).Pairwise itemGe
      exact List.sorted_insertionSort itemGe _
  -- keys of the output are exactly the scan keys (up to permutation)
  have hkeysnd : ((groupScan items).map Prod.snd).map (fun g => g.key) =
      (groupScan items).map Prod.fst := by
    rw [List.map_map]
    apply List.map_congr_left
    intro e he
    exact (hmem e he).1
  have hkeynodup : ((buildGroups items).map (fun g => g.key)).Nodup := by
    rw [hbg, List.map_map]
    have heq : ((fun g => g.key) ∘
        (fun g => { g with items := List.insertionSort itemGe g.items })) =
        (fun (g : TriggerGroup) => g.key) := rfl
    rw [heq]
    have hperm : (List.insertionSort groupGe
        ((groupScan items).map Prod.snd)).map (fun g => g.key) |>.Perm
        (((groupScan items).map Prod.snd).map (fun g => g.key)) :=
      (List.perm_insertionSort groupGe _).map _
    rw [hperm.nodup_iff, hkeysnd]
    exact hnd
  -- each member of a group comes from the input with the group's key
  have hmemof : ∀ g ∈ buildGroups items, ∀ t ∈ g.items,
      t ∈ items ∧ g.key = groupKeyOf t.pipeline := by
    intro g hg t ht
    obtain ⟨e, he, hekey, _, hperm, _⟩ := hgroup g hg
    have htf := hperm.mem_iff.mp ht
    have := List.mem_filter.mp htf
    refine ⟨this.1, ?_⟩
    rw [hekey]
    have := this.2
    simp at this
    exact this.symm
  refine ⟨?_, hmemof, hkeynodup, ?_, ?_, ?_, ?_, ?_⟩
  · -- every input pipeline lands in a group with its key
    intro t ht
    have hany : items.any
        (fun u => groupKeyOf u.pipeline = groupKeyOf t.pipeline) = true :=
      List.any_eq_true.mpr ⟨t, ht, by simp⟩
    have hh : mapHas (groupScan items) (groupKeyOf t.pipeline) = true := by
      rw [hhas _]
      exact hany
    unfold mapHas at hh
    obtain ⟨e, he, hek⟩ := List.any_eq_true.mp hh
    have hek' : e.1 = groupKeyOf t.pipeline := by simpa using hek
    obtain ⟨hekey, heitems, _, _⟩ := hmem e he
    refine ⟨{ e.2 with items := List.insertionSort itemGe e.2.items },
      (hchar _).mpr ⟨e, he, rfl⟩, ?_, ?_⟩
    · show e.2.key = _
      rw [hekey, hek']
    · show t ∈ List.insertionSort itemGe e.2.items
      rw [(List.perm_insertionSort itemGe _).mem_iff, heitems]
      exact List.mem_filter.mpr ⟨ht, by simp [hek']⟩
  · -- a pipeline belongs to at most one group
    intro g1 hg1 g2 hg2 t ht1 ht2
    have hk1 := (hmemof g1 hg1 t ht1).2
    have hk2 := (hmemof g2 hg2 t ht2).2
    exact group_key_inj _ hkeynodup g1 g2 hg1 hg2 (hk1.trans hk2.symm)
  · -- latest timestamp is the max over members
    intro g hg
    obtain ⟨e, he, hekey, hlat, hperm, _⟩ := hgroup g hg
    obtain ⟨_, heitems, hemem, heub⟩ := hmem e he
    constructor
    · rw [hlat]
      have : (g.items.map (fun t => t.pipeline.created_at)).Perm
          ((items.filter (fun t => groupKeyOf t.pipeline = e.1)).map
            (fun t => t.pipeline.created_at)) := hperm.map _
      rw [this.mem_iff, ← heitems]
      exact hemem
    · intro t ht
      rw [hlat]
      exact heub t (by rw [heitems]; exact hperm.mem_iff.mp ht)
  · -- groups are sorted newest-first
    rw [hbg]
    exact (List.sorted_insertionSort groupGe _).map _ (fun a b h => h)
  · -- members are sorted newest-first
    intro g hg
    obtain ⟨_, _, _, _, _, hp⟩ := hgroup g hg
    exact hp
  · -- the shared-tag scenario
    intro t1 ht1 t2 ht2 htag heqtag g1 hg1 g2 hg2 hm1 hm2
    have hk1 := (hmemof g1 hg1 t1 hm1).2
    have hk2 := (hmemof g2 hg2 t2 hm2).2
    have hkey1 : groupKeyOf t1.pipeline = "tag:" ++ t1.pipeline.tag.getD "" := by
      unfold groupKeyOf
      rw [if_pos htag]
    have hkey2 : groupKeyOf t2.pipeline = groupKeyOf t1.pipeline := by
      unfold groupKeyOf
      rw [← heqtag, if_pos htag, if_pos htag]
    refine ⟨?_, by rw [hk1, hkey1]⟩
    exact group_key_inj _ hkeynodup g1 g2 hg1 hg2
      (by rw [hk1, hk2, hkey2])

theorem buildGroups_spec_witness :
    ∃ g ∈ buildGroups
        [TriggeredPipeline.mk
          (Pipeline.mk "p1" 1 10 none (some "v1") "r1" none "api") none "API",
         TriggeredPipeline.mk
          (Pipeline.mk "p2" 2 20 none (some "v1") "r2" none "api") none "API"],
      g.key = groupKeyOf (TriggeredPipeline.mk
        (Pipeline.mk "p1" 1 10 none (some "v1") "r1" none "api")
        none "API").pipeline ∧
      TriggeredPipeline.mk
        (Pipeline.mk "p1" 1 10 none (some "v1") "r1" none "api") none "API"
        ∈ g.items :=
  (buildGroups_spec
      [TriggeredPipeline.mk
        (Pipeline.mk "p1" 1 10 none (some "v1") "r1" none "api") none "API",
       TriggeredPipeline.mk
        (Pipeline.mk "p2" 2 20 none (some "v1") "r2" none "api") none "API"]).1
    (TriggeredPipeline.mk
      (Pipeline.mk "p1" 1 10 none (some "v1") "r1" none "api") none "API")
    (by decide)

/-! ### DAG layout engine (PipelineGraph component)

`getDepth` in the source is a recursive closure over two pieces of mutable
state: a memo table `depths` shared across the whole layout and a `visited`
set shared along one top-level traversal (the JS `Set` is passed by reference,
so additions made inside nested calls persist in the caller).  We embed the
recursion with an explicit fuel argument (structural recursion on fuel); the
out-of-fuel case is `none`, and the fuel-sufficiency theorem below shows
`jobs.length + 1` fuel always suffices — that is the termination claim of the
source recursion. -/

def NODE_RADIUS : Nat := 22
def COL_SPACING : Nat := 160
def ROW_SPACING : Nat := 72
def PADDING_X : Nat := 50
def PADDING_Y : Nat := 50

/-- `new Map(jobs.map(j => [j.id, j])).get(id)` — later entries overwrite
earlier ones, so lookup returns the last job with the id. -/
def jobMapGet (jobs : List Job) (id : String) : Option Job :=
  jobs.reverse.find? (fun j => j.id = id)

structure DepthState where
  visited : List String
  depths : List (String × Nat)
deriving DecidableEq, Repr

def lookupDepth (ds : List (String × Nat)) (k : String) : Option Nat :=
  (ds.find? (fun e => e.1 = k)).map (fun e => e.2)

/-- The `for (const depId of job.dependencies)` loop of `getDepth`:
unresolvable dependency ids are skipped; resolvable ones recurse (through
`rec`) and raise the running maximum to `depth + 1`. -/
def goDepsAux (jobs : List Job)
    (rec : String → DepthState → Option (Nat × DepthState)) :
    List String → DepthState → Nat → Option (Nat × DepthState)
  | [], s, acc => some (acc, s)
  | depId :: rest, s, acc =>
    if (jobMapGet jobs depId).isSome then
      match rec depId s with
      | none => none
      | some (d, s1) => goDepsAux jobs rec rest s1 (max acc (d + 1))
    else goDepsAux jobs rec rest s acc

/-- `getDepth(jobId, visited)` with fuel: memo hit first, then cycle
protection (`visited` hit returns 0 without memoizing), then the job lookup;
a missing job or an empty dependency list memoizes depth 0; otherwise the
dependency loop runs and the maximum is memoized. -/
def getDepthF (jobs : List Job) : Nat → String → DepthState → Option (Nat × DepthState)
  | 0 => fun _ _ => none
  | fuel + 1 => fun jobId s =>
    match lookupDepth s.depths jobId with
    | some d => some (d, s)
    | none =>
      if jobId ∈ s.visited then some (0, s)
      else
        match jobMapGet jobs jobId with
        | none => some (0, ⟨jobId :: s.visited, (jobId, 0) :: s.depths⟩)
        | some job =>
          if job.dependencies.isEmpty then
            some (0, ⟨jobId :: s.visited, (jobId, 0) :: s.depths⟩)
          else
            match goDepsAux jobs (getDepthF jobs fuel) job.dependencies
                ⟨jobId :: s.visited, s.depths⟩ 0 with
            | none => none
            | some (m, s2) => some (m, ⟨s2.visited, (jobId, m) :: s2.depths⟩)

/-- The `for (const job of jobs) getDepth(job.id)` loop: the memo table is
threaded through, the visited set starts fresh for each top-level call. -/
def runDepths (jobs : List Job) (fuel : Nat) : Option (List (String × Nat)) :=
  jobs.foldlM
    (fun ds j => (getDepthF jobs fuel j.id ⟨[], ds⟩).map (fun r => r.2.depths))
    []

/-- The depth table of the layout, at the always-sufficient fuel. -/
def depthsOf (jobs : List Job) : List (String × Nat) :=
  (runDepths jobs (jobs.length + 1)).getD []

/-- `depths.get(job.id) ?? 0`. -/
def depthOf (jobs : List Job) (id : String) : Nat :=
  (lookupDepth (depthsOf jobs) id).getD 0

example :
    runDepths
      [Job.mk "A" "a" "success" "build" none none none ["B"],
       Job.mk "B" "b" "success" "build" none none none ["A"]] 3 =
    some [("A", 2), ("B", 1)] := by decide

example :
    depthOf [Job.mk "B" "b" "success" "build" none none none ["A"],
             Job.mk "A" "a" "success" "build" none none none ["B"]] "A" = 1 := by
  decide

/-- Sort relation for jobs within a column: by name ascending
(`a.name.localeCompare(b.name)` with a fixed collation). -/
def nameLe (a b : Job) : Prop := a.name ≤ b.name

instance : DecidableRel nameLe := fun a b => by
  unfold nameLe
  exact inferInstance

instance : IsTotal Job nameLe :=
  ⟨fun a b => by
    unfold nameLe
    exact le_total _ _⟩

instance : IsTrans Job nameLe :=
  ⟨fun a b c h1 h2 => by
    unfold nameLe at h1 h2 ⊢
    exact le_trans h1 h2⟩

/-- The keys of the `columns` map in first-insertion order (a JS `Map`
iterates its keys in insertion order). -/
def firstOccurs (l : List Nat) : List Nat :=
  l.foldl (fun acc d => if d ∈ acc then acc else acc ++ [d]) []

/-- The `columns` bucket for one depth, in input order. -/
def columnOf (jobs : List Job) (d : Nat) : List Job :=
  jobs.filter (fun j => depthOf jobs j.id = d)

/-- A column after the stable in-place sort by name. -/
def sortedColumnOf (jobs : List Job) (d : Nat) : List Job :=
  List.insertionSort nameLe (columnOf jobs d)

def depthKeysOf (jobs : List Job) : List Nat :=
  firstOccurs (jobs.map (fun j => depthOf jobs j.id))

structure GraphNode where
  id : String
  name : String
  status : String
  type : String
  depth : Nat
  row : Nat
  x : Nat
  y : Nat
  dependencies : List String
  started_at : Option Int
  stopped_at : Option Int
  job_number : Option Nat
deriving DecidableEq, Repr

def mkNode (d row : Nat) (j : Job) : GraphNode :=
  ⟨j.id, j.name, j.status, j.type, d, row,
   PADDING_X + d * COL_SPACING, PADDING_Y + row * ROW_SPACING,
   j.dependencies, j.started_at, j.stopped_at, j.job_number⟩

def layoutNodes (jobs : List Job) : List GraphNode :=
  ((depthKeysOf jobs).map (fun d =>
    (sortedColumnOf jobs d).enum.map (fun r => mkNode d r.1 r.2))).flatten

def nodeMapGet (nodes : List GraphNode) (id : String) : Option GraphNode :=
  nodes.reverse.find? (fun n => n.id = id)

/-- An edge carries both endpoint ids and node snapshots (`from`/`to` in the
source; `from` is a Lean keyword, hence `fromId`). -/
structure GraphEdge where
  fromId : String
  toId : String
  fromNode : GraphNode
  toNode : GraphNode
deriving DecidableEq, Repr

def layoutEdges (nodes : List GraphNode) : List GraphEdge :=
  (nodes.map (fun n => n.dependencies.filterMap (fun depId =>
    (nodeMapGet nodes depId).map (fun fromNode =>
      ⟨depId, n.id, fromNode, n⟩)))).flatten

structure LayoutResult where
  nodes : List GraphNode
  edges : List GraphEdge
  width : Nat
  height : Nat
deriving DecidableEq, Repr

/-- `layoutGraph`: empty input short-circuits to an all-zero result; otherwise
nodes get column/row positions, edges are built for resolvable dependency
pairs, and the canvas dimensions are floored at 200 × 140. -/
def layoutGraph (jobs : List Job) : LayoutResult :=
  if jobs.length = 0 then ⟨[], [], 0, 0⟩
  else
    ⟨layoutNodes jobs, layoutEdges (layoutNodes jobs),
     max (PADDING_X * 2 + ((depthKeysOf jobs).foldl max 0) * COL_SPACING +
       NODE_RADIUS * 2) 200,
     max (PADDING_Y * 2 +
       ((depthKeysOf jobs).foldl
         (fun acc d => max acc ((columnOf jobs d).length - 1)) 0) *
         ROW_SPACING + 40) 140⟩

example : (layoutGraph []).width = 0 := by decide
example :
    (layoutGraph [Job.mk "A" "a" "success" "build" none none none []]).width
      = 200 := by decide
example :
    ((layoutGraph
      [Job.mk "A" "a" "success" "build" none none none ["B"],
       Job.mk "B" "b" "success" "build" none none none ["A"]]).nodes.find?
        (fun n => n.id = "A")).map (fun n => n.depth) = some 2 := by decide
example :
    ((layoutGraph
      [Job.mk "B" "b" "success" "build" none none none ["A"],
       Job.mk "A" "a" "success" "build" none none none ["B"]]).nodes.find?
        (fun n => n.id = "A")).map (fun n => n.depth) = some 1 := by decide

/-- C10 counterexample: for the empty job list `layoutGraph` short-circuits to
a 0 × 0 canvas, below the 200 × 140 floor the claim asserts for every input
including the empty list. -/
theorem layoutGraph_empty_counterexample :
    (layoutGraph []).width = 0 ∧ (layoutGraph []).height = 0 ∧
    ¬ (200 ≤ (layoutGraph []).width ∧ 140 ≤ (layoutGraph []).height) := by
  decide

/-- C10 (amended): for every non-empty job list the canvas dimensions are
floored at 200 × 140 pixels; the empty job list instead short-circuits to a
0 × 0 canvas before the floor is applied. -/
theorem layoutGraph_min_dims (jobs : List Job) (h : jobs ≠ []) :
    200 ≤ (layoutGraph jobs).width ∧ 140 ≤ (layoutGraph jobs).height ∧
    (layoutGraph []).width = 0 ∧ (layoutGraph []).height = 0 := by
  unfold layoutGraph
  rw [if_neg (fun h0 => h (List.length_eq_zero.mp h0))]
  exact ⟨le_max_right _ _, le_max_right _ _, rfl, rfl⟩

theorem layoutGraph_min_dims_witness :
    200 ≤ (layoutGraph
      [Job.mk "A" "a" "success" "build" none none none []]).width ∧
    140 ≤ (layoutGraph
      [Job.mk "A" "a" "success" "build" none none none []]).height ∧
    (layoutGraph []).width = 0 ∧ (layoutGraph []).height = 0 :=
  layoutGraph_min_dims [Job.mk "A" "a" "success" "build" none none none []]
    (by decide)

/-! ### Termination and fuel sufficiency of the depth computation -/

/-- The number of job ids not yet on the visited path: the measure that
bounds the recursion depth of `getDepth`. -/
def unvisited (jobs : List Job) (s : DepthState) : Nat :=
  (jobs.map Job.id).countP (fun i => decide (i ∉ s.visited))

theorem lookupDepth_cons (a : String) (n : Nat) (ds : List (String × Nat))
    (k : String) :
    lookupDepth ((a, n) :: ds) k = if a = k then some n else lookupDepth ds k := by
  unfold lookupDepth
  by_cases h : a = k
  · rw [List.find?_cons_of_pos _ (by simpa using h), if_pos h]
    rfl
  · rw [List.find?_cons_of_neg _ (by simpa using h), if_neg h]

theorem countP_lt_of {α : Type} (l : List α) (p q : α → Bool)
    (himp : ∀ x ∈ l, q x = true → p x = true)
    (a : α) (ha : a ∈ l) (hpa : p a = true) (hqa : q a = false) :
    l.countP q < l.countP p := by
  induction l with
  | nil => cases ha
  | cons c tl ih =>
    have hmono : tl.countP q ≤ tl.countP p :=
      List.countP_mono_left (fun x hx => himp x (by simp [hx]))
    rcases List.mem_cons.mp ha with rfl | ha'
    · rw [List.countP_cons_of_pos _ _ hpa, List.countP_cons_of_neg _ _ (by simp [hqa])]
      omega
    · have hlt := ih (fun x hx h => himp x (by simp [hx]) h) ha'
      rw [List.countP_cons, List.countP_cons]
      rcases hq : q c with _ | _ <;> rcases hp : p c with _ | _
      · simp
        omega
      · simp
        omega
      · exact absurd (himp c (by simp) hq) (by simp [hp])
      · simp
        omega

theorem unvisited_le_of_subset (jobs : List Job) (s s' : DepthState)
    (h : ∀ x ∈ s.visited, x ∈ s'.visited) :
    unvisited jobs s' ≤ unvisited jobs s := by
  unfold unvisited
  apply List.countP_mono_left
  intro x _
  simp only [decide_eq_true_eq]
  intro hx hmem
  exact hx (h x hmem)

theorem jobMapGet_mem (jobs : List Job) (id : String) (j : Job)
    (h : jobMapGet jobs id = some j) : j ∈ jobs ∧ j.id = id := by
  unfold jobMapGet at h
  have h1 := List.mem_of_find?_eq_some h
  have h2 := List.find?_some h
  exact ⟨List.mem_reverse.mp h1, by simpa using h2⟩

theorem goDepsAux_mono (jobs : List Job)
    (rec : String → DepthState → Option (Nat × DepthState))
    (hrec : ∀ jobId s d s', rec jobId s = some (d, s') →
      (∀ x ∈ s.visited, x ∈ s'.visited) ∧
      (∀ k v, lookupDepth s.depths k = some v →
        lookupDepth s'.depths k = some v)) :
    ∀ (deps : List String) (s : DepthState) (acc m : Nat) (s2 : DepthState),
      goDepsAux jobs rec deps s acc = some (m, s2) →
      (∀ x ∈ s.visited, x ∈ s2.visited) ∧
      (∀ k v, lookupDepth s.depths k = some v →
        lookupDepth s2.depths k = some v) := by
  intro deps
  induction deps with
  | nil =>
    intro s acc m s2 h
    unfold goDepsAux at h
    cases h
    exact ⟨fun x hx => hx, fun k v hv => hv⟩
  | cons depId rest ih =>
    intro s acc m s2 h
    unfold goDepsAux at h
    by_cases hres : (jobMapGet jobs depId).isSome
    · rw [if_pos hres] at h
      cases hrec' : rec depId s with
      | none => rw [hrec'] at h; cases h
      | some r =>
        obtain ⟨d, s1⟩ := r
        rw [hrec'] at h
        obtain ⟨hv1, hl1⟩ := hrec depId s d s1 hrec'
        obtain ⟨hv2, hl2⟩ := ih s1 (max acc (d + 1)) m s2 h
        exact ⟨fun x hx => hv2 x (hv1 x hx), fun k v hv => hl2 k v (hl1 k v hv)⟩
    · rw [if_neg hres] at h
      exact ih s acc m s2 h

theorem getDepthF_mono (jobs : List Job) :
    ∀ (fuel : Nat) (jobId : String) (s : DepthState) (d : Nat) (s' : DepthState),
      getDepthF jobs fuel jobId s = some (d, s') →
      (∀ x ∈ s.visited, x ∈ s'.visited) ∧
      (∀ k v, lookupDepth s.depths k = some v →
        lookupDepth s'.depths k = some v) := by
  intro fuel
  induction fuel with
  | zero =>
    intro jobId s d s' h
    simp [getDepthF] at h
  | succ fuel ih =>
    intro jobId s d s' h
    unfold getDepthF at h
    cases hmemo : lookupDepth s.depths jobId with
    | some d0 =>
      simp only [hmemo] at h
      cases h
      exact ⟨fun x hx => hx, fun k v hv => hv⟩
    | none =>
      simp only [hmemo] at h
      by_cases hvis : jobId ∈ s.visited
      · rw [if_pos hvis] at h
        cases h
        exact ⟨fun x hx => hx, fun k v hv => hv⟩
      · rw [if_neg hvis] at h
        cases hjob : jobMapGet jobs jobId with
        | none =>
          simp only [hjob] at h
          cases h
          refine ⟨fun x hx => List.mem_cons.mpr (Or.inr hx), ?_⟩
          intro k v hv
          rw [lookupDepth_cons]
          by_cases hk : jobId = k
          · subst hk
            rw [hmemo] at hv
            cases hv
          · rw [if_neg hk]
            exact hv
        | some job =>
          simp only [hjob] at h
          by_cases hdeps : job.dependencies.isEmpty
          · rw [if_pos hdeps] at h
            cases h
            refine ⟨fun x hx => List.mem_cons.mpr (Or.inr hx), ?_⟩
            intro k v hv
            rw [lookupDepth_cons]
            by_cases hk : jobId = k
            · subst hk
              rw [hmemo] at hv
              cases hv
            · rw [if_neg hk]
              exact hv
          · rw [if_neg hdeps] at h
            cases hgo : goDepsAux jobs (getDepthF jobs fuel) job.dependencies
                ⟨jobId :: s.visited, s.depths⟩ 0 with
            | none =>
              simp only [hgo] at h
              exact Option.noConfusion h
            | some r =>
              obtain ⟨m, s2⟩ := r
              simp only [hgo] at h
              cases h
              obtain ⟨hv2, hl2⟩ := goDepsAux_mono jobs _ ih
                job.dependencies _ 0 _ _ hgo
              refine ⟨?_, ?_⟩
              · intro x hx
                exact hv2 x (List.mem_cons.mpr (Or.inr hx))
              · intro k v hv
                rw [lookupDepth_cons]
                by_cases hk : jobId = k
                · subst hk
                  rw [hmemo] at hv
                  cases hv
                · rw [if_neg hk]
                  exact hl2 k v hv

theorem goDepsAux_some (jobs : List Job)
    (rec : String → DepthState → Option (Nat × DepthState))
    (hrecmono : ∀ jobId s d s', rec jobId s = some (d, s') →
      (∀ x ∈ s.visited, x ∈ s'.visited) ∧
      (∀ k v, lookupDepth s.depths k = some v →
        lookupDepth s'.depths k = some v))
    (N : Nat)
    (hrec : ∀ jobId s', unvisited jobs s' ≤ N → (rec jobId s').isSome) :
    ∀ (deps : List String) (s : DepthState) (acc : Nat),
      unvisited jobs s ≤ N → (goDepsAux jobs rec deps s acc).isSome := by
  intro deps
  induction deps with
  | nil =>
    intro s acc _
    rfl
  | cons depId rest ih =>
    intro s acc hle
    unfold goDepsAux
    by_cases hres : (jobMapGet jobs depId).isSome
    · rw [if_pos hres]
      cases hrec' : rec depId s with
      | none =>
        have := hrec depId s hle
        rw [hrec'] at this
        cases this
      | some r =>
        obtain ⟨d, s1⟩ := r
        have hsub := (hrecmono depId s d s1 hrec').1
        have hle1 : unvisited jobs s1 ≤ N :=
          le_trans (unvisited_le_of_subset jobs s s1 hsub) hle
        exact ih s1 (max acc (d + 1)) hle1
    · rw [if_neg hres]
      exact ih s acc hle

theorem getDepthF_some (jobs : List Job) :
    ∀ (fuel : Nat) (jobId : String) (s : DepthState),
      unvisited jobs s < fuel → (getDepthF jobs fuel jobId s).isSome := by
  intro fuel
  induction fuel with
  | zero =>
    intro _ _ h
    omega
  | succ fuel ih =>
    intro jobId s hlt
    unfold getDepthF
    cases hmemo : lookupDepth s.depths jobId with
    | some d0 => rfl
    | none =>
      by_cases hvis : jobId ∈ s.visited
      · rw [if_pos hvis]
        rfl
      · rw [if_neg hvis]
        cases hjob : jobMapGet jobs jobId with
        | none => rfl
        | some job =>
          simp only []
          by_cases hdeps : job.dependencies.isEmpty
          · rw [if_pos hdeps]
            rfl
          · rw [if_neg hdeps]
            have hjm := jobMapGet_mem jobs jobId job hjob
            have hidmem : jobId ∈ jobs.map Job.id :=
              List.mem_map.mpr ⟨job, hjm.1, hjm.2⟩
            have hdec : unvisited jobs ⟨jobId :: s.visited, s.depths⟩ <
                unvisited jobs s := by
              refine countP_lt_of _ _ _ ?_ jobId hidmem ?_ ?_
              · intro x _
                simp only [decide_eq_true_eq]
                intro hx hmem
                exact hx (List.mem_cons.mpr (Or.inr hmem))
              · simp [hvis]
              · simp
            have hgo := goDepsAux_some jobs (getDepthF jobs fuel)
              (getDepthF_mono jobs fuel)
              (unvisited jobs ⟨jobId :: s.visited, s.depths⟩)
              (fun id s' hle => ih id s' (by omega))
              job.dependencies ⟨jobId :: s.visited, s.depths⟩ 0 (le_refl _)
            cases hgores : goDepsAux jobs (getDepthF jobs fuel)
                job.dependencies ⟨jobId :: s.visited, s.depths⟩ 0 with
            | none =>
              rw [hgores] at hgo
              cases hgo
            | some r => rfl

theorem getDepthF_top_entry (jobs : List Job) (fuel : Nat) (jobId : String)
    (ds : List (String × Nat)) (d : Nat) (s' : DepthState)
    (h : getDepthF jobs fuel jobId ⟨[], ds⟩ = some (d, s')) :
    ∃ n, lookupDepth s'.depths jobId = some n := by
  cases fuel with
  | zero => simp [getDepthF] at h
  | succ fuel =>
    unfold getDepthF at h
    simp only [] at h
    cases hmemo : lookupDepth ds jobId with
    | some d0 =>
      simp only [hmemo] at h
      cases h
      exact ⟨d, hmemo⟩
    | none =>
      simp only [hmemo] at h
      rw [if_neg (List.not_mem_nil jobId)] at h
      cases hjob : jobMapGet jobs jobId with
      | none =>
        simp only [hjob] at h
        cases h
        exact ⟨0, by rw [lookupDepth_cons, if_pos rfl]⟩
      | some job =>
        simp only [hjob] at h
        by_cases hdeps : job.dependencies.isEmpty
        · rw [if_pos hdeps] at h
          cases h
          exact ⟨0, by rw [lookupDepth_cons, if_pos rfl]⟩
        · rw [if_neg hdeps] at h
          cases hgo : goDepsAux jobs (getDepthF jobs fuel) job.dependencies
              ⟨[jobId], ds⟩ 0 with
          | none =>
            simp only [hgo] at h
            exact Option.noConfusion h
          | some r =>
            obtain ⟨m, s2⟩ := r
            simp only [hgo] at h
            cases h
            exact ⟨d, by rw [lookupDepth_cons, if_pos rfl]⟩

theorem unvisited_fresh_lt (jobs : List Job) (ds : List (String × Nat)) :
    unvisited jobs ⟨[], ds⟩ < jobs.length + 1 := by
  unfold unvisited
  calc (jobs.map Job.id).countP (fun i => decide (i ∉ ([] : List String)))
      ≤ (jobs.map Job.id).length := List.countP_le_length _
    _ = jobs.length := List.length_map _ _
    _ < jobs.length + 1 := Nat.lt_succ_self _

theorem runDepths_spec (jobs : List Job) :
    ∀ (todo : List Job) (ds : List (String × Nat)),
      ∃ D, todo.foldlM
          (fun ds j => (getDepthF jobs (jobs.length + 1) j.id ⟨[], ds⟩).map
            (fun r => r.2.depths)) ds = some D ∧
        (∀ k v, lookupDepth ds k = some v → lookupDepth D k = some v) ∧
        (∀ j ∈ todo, ∃ n, lookupDepth D j.id = some n) := by
  intro todo
  induction todo using List.reverseRecOn with
  | nil =>
    intro ds
    exact ⟨ds, rfl, fun k v h => h, by simp⟩
  | append_singleton todo j ih =>
    intro ds
    obtain ⟨D, hD, hpres, hall⟩ := ih ds
    have hsome := getDepthF_some jobs (jobs.length + 1) j.id ⟨[], D⟩
      (unvisited_fresh_lt jobs D)
    cases hget : getDepthF jobs (jobs.length + 1) j.id ⟨[], D⟩ with
    | none =>
      rw [hget] at hsome
      cases hsome
    | some r =>
      obtain ⟨d, s'⟩ := r
      have hmono := getDepthF_mono jobs (jobs.length + 1) j.id ⟨[], D⟩ d s' hget
      refine ⟨s'.depths, ?_, ?_, ?_⟩
      · rw [List.foldlM_append, hD]
        simp [List.foldlM, hget]
      · intro k v hv
        exact hmono.2 k v (hpres k v hv)
      · intro j' hj'
        rcases List.mem_append.mp hj' with hj1 | hj2
        · obtain ⟨n, hn⟩ := hall j' hj1
          exact ⟨n, hmono.2 j'.id n hn⟩
        · rw [List.mem_singleton] at hj2
          subst hj2
          exact getDepthF_top_entry jobs (jobs.length + 1) j'.id D d s' hget

theorem firstOccurs_append (l : List Nat) (a : Nat) :
    firstOccurs (l ++ [a]) =
      if a ∈ firstOccurs l then firstOccurs l else firstOccurs l ++ [a] := by
  unfold firstOccurs
  rw [List.foldl_append]
  rfl

theorem mem_firstOccurs (l : List Nat) (x : Nat) :
    x ∈ firstOccurs l ↔ x ∈ l := by
  induction l using List.reverseRecOn with
  | nil => simp [firstOccurs]
  | append_singleton l a ih =>
    rw [firstOccurs_append]
    by_cases h : a ∈ firstOccurs l
    · rw [if_pos h]
      constructor
      · intro hx
        exact List.mem_append.mpr (Or.inl (ih.mp hx))
      · intro hx
        rcases List.mem_append.mp hx with h1 | h2
        · exact ih.mpr h1
        · rw [List.mem_singleton] at h2
          subst h2
          exact h
    · rw [if_neg h]
      simp [ih]
  
theorem nodup_firstOccurs (l : List Nat) : (firstOccurs l).Nodup := by
  induction l using List.reverseRecOn with
  | nil => simp [firstOccurs]
  | append_singleton l a ih =>
    rw [firstOccurs_append]
    by_cases h : a ∈ firstOccurs l
    · rw [if_pos h]
      exact ih
    · rw [if_neg h]
      simp [List.nodup_append, ih, h]

theorem layoutGraph_nodes (jobs : List Job) (h : jobs ≠ []) :
    (layoutGraph jobs).nodes = layoutNodes jobs := by
  unfold layoutGraph
  rw [if_neg (fun h0 => h (List.length_eq_zero.mp h0))]

theorem mem_layoutNodes_of_mem (jobs : List Job) (j : Job) (hj : j ∈ jobs) :
    ∃ nd ∈ (layoutGraph jobs).nodes,
      nd.id = j.id ∧ nd.depth = depthOf jobs j.id := by
  have hjne : jobs ≠ [] := by
    intro h
    rw [h] at hj
    cases hj
  have hcol : j ∈ columnOf jobs (depthOf jobs j.id) :=
    List.mem_filter.mpr ⟨hj, by simp⟩
  have hsort : j ∈ sortedColumnOf jobs (depthOf jobs j.id) :=
    (List.perm_insertionSort nameLe _).mem_iff.mpr hcol
  obtain ⟨i, hi⟩ := List.get_of_mem hsort
  have henum : ((i : Nat), j) ∈ (sortedColumnOf jobs (depthOf jobs j.id)).enum := by
    rw [List.mk_mem_enum_iff_getElem?]
    rw [List.getElem?_eq_getElem i.isLt]
    rw [← List.get_eq_getElem, hi]
  have hdkey : depthOf jobs j.id ∈ depthKeysOf jobs := by
    unfold depthKeysOf
    rw [mem_firstOccurs]
    exact List.mem_map.mpr ⟨j, hj, rfl⟩
  refine ⟨mkNode (depthOf jobs j.id) i j, ?_, rfl, rfl⟩
  rw [layoutGraph_nodes jobs hjne]
  unfold layoutNodes
  rw [List.mem_flatten]
  refine ⟨_, List.mem_map.mpr ⟨depthOf jobs j.id, hdkey, rfl⟩, ?_⟩
  exact List.mem_map.mpr ⟨((i : Nat), j), henum, rfl⟩

/-- C3: for every finite job collection — dependency cycles such as mutual
A ↔ B included — the depth computation completes within `jobs.length + 1`
fuel (the fuel models the recursion depth of the source's `getDepth`, so this
is its termination), every job receives a finite depth, every job receives a
node in the layout, and the concrete mutual-dependency pair terminates with
finite depths for both jobs. -/
theorem layout_terminates (jobs : List Job) :
    (∃ D, runDepths jobs (jobs.length + 1) = some D ∧
      ∀ j ∈ jobs, ∃ n, lookupDepth D j.id = some n) ∧
    (∀ j ∈ jobs, ∃ nd ∈ (layoutGraph jobs).nodes,
      nd.id = j.id ∧ nd.depth = depthOf jobs j.id) ∧
    runDepths
      [Job.mk "A" "a" "success" "build" none none none ["B"],
       Job.mk "B" "b" "success" "build" none none none ["A"]] 3 =
      some [("A", 2), ("B", 1)] := by
  refine ⟨?_, mem_layoutNodes_of_mem jobs, by decide⟩
  obtain ⟨D, hD, _, hall⟩ := runDepths_spec jobs jobs []
  exact ⟨D, hD, hall⟩

theorem layout_terminates_witness :
    (∃ D, runDepths
        [Job.mk "A" "a" "success" "build" none none none ["B"],
         Job.mk "B" "b" "success" "build" none none none ["A"]] 3 = some D ∧
      ∀ j ∈ [Job.mk "A" "a" "success" "build" none none none ["B"],
             Job.mk "B" "b" "success" "build" none none none ["A"]],
        ∃ n, lookupDepth D j.id = some n) ∧
    (∀ j ∈ [Job.mk "A" "a" "success" "build" none none none ["B"],
            Job.mk "B" "b" "success" "build" none none none ["A"]],
      ∃ nd ∈ (layoutGraph
        [Job.mk "A" "a" "success" "build" none none none ["B"],
         Job.mk "B" "b" "success" "build" none none none ["A"]]).nodes,
        nd.id = j.id ∧ nd.depth = depthOf
          [Job.mk "A" "a" "success" "build" none none none ["B"],
           Job.mk "B" "b" "success" "build" none none none ["A"]] j.id) ∧
    runDepths
      [Job.mk "A" "a" "success" "build" none none none ["B"],
       Job.mk "B" "b" "success" "build" none none none ["A"]] 3 =
      some [("A", 2), ("B", 1)] :=
  layout_terminates
    [Job.mk "A" "a" "success" "build" none none none ["B"],
     Job.mk "B" "b" "success" "build" none none none ["A"]]

theorem find?_of_unique {α : Type} (l : List α) (p : α → Bool) (a : α)
    (ha : a ∈ l) (hpa : p a = true) (huniq : ∀ b ∈ l, p b = true → b = a) :
    l.find? p = some a := by
  induction l with
  | nil => cases ha
  | cons c tl ih =>
    by_cases hc : p c
    · rw [List.find?_cons_of_pos _ hc]
      rw [huniq c (by simp) hc]
    · rw [List.find?_cons_of_neg _ (by simpa using hc)]
      rcases List.mem_cons.mp ha with rfl | ha'
      · exact absurd hpa (by simpa using hc)
      · exact ih ha' (fun b hb hpb => huniq b (by simp [hb]) hpb)

theorem jobMapGet_self (jobs : List Job) (hnd : (jobs.map Job.id).Nodup)
    (j : Job) (hj : j ∈ jobs) : jobMapGet jobs j.id = some j := by
  unfold jobMapGet
  apply find?_of_unique
  · exact List.mem_reverse.mpr hj
  · simp
  · intro b hb hpb
    have hb' : b ∈ jobs := List.mem_reverse.mp hb
    have hid : b.id = j.id := by simpa using hpb
    -- two members with equal ids are equal because the id list has no dups
    have := List.inj_on_of_nodup_map hnd hb' hj hid
    exact this

/-- The keys currently being computed (visited but not yet memoized) never
get memoized by a nested call: memoization happens only on the not-visited
path. -/
theorem goDepsAux_inprog (jobs : List Job)
    (rec : String → DepthState → Option (Nat × DepthState))
    (hrecv : ∀ jobId s d s', rec jobId s = some (d, s') →
      ∀ x ∈ s.visited, x ∈ s'.visited)
    (hrecp : ∀ jobId s d s', rec jobId s = some (d, s') →
      ∀ k, k ∈ s.visited → lookupDepth s.depths k = none →
        lookupDepth s'.depths k = none) :
    ∀ (deps : List String) (s : DepthState) (acc m : Nat) (s2 : DepthState),
      goDepsAux jobs rec deps s acc = some (m, s2) →
      ∀ k, k ∈ s.visited → lookupDepth s.depths k = none →
        lookupDepth s2.depths k = none := by
  intro deps
  induction deps with
  | nil =>
    intro s acc m s2 h k hk hl
    unfold goDepsAux at h
    cases h
    exact hl
  | cons depId rest ih =>
    intro s acc m s2 h k hk hl
    unfold goDepsAux at h
    by_cases hres : (jobMapGet jobs depId).isSome
    · rw [if_pos hres] at h
      cases hrec' : rec depId s with
      | none => rw [hrec'] at h; cases h
      | some r =>
        obtain ⟨d, s1⟩ := r
        rw [hrec'] at h
        exact ih s1 _ m s2 h k (hrecv depId s d s1 hrec' k hk)
          (hrecp depId s d s1 hrec' k hk hl)
    · rw [if_neg hres] at h
      exact ih s acc m s2 h k hk hl

theorem getDepthF_inprog (jobs : List Job) :
    ∀ (fuel : Nat) (jobId : String) (s : DepthState) (d : Nat) (s' : DepthState),
      getDepthF jobs fuel jobId s = some (d, s') →
      ∀ k, k ∈ s.visited → lookupDepth s.depths k = none →
        lookupDepth s'.depths k = none := by
  intro fuel
  induction fuel with
  | zero =>
    intro jobId s d s' h
    simp [getDepthF] at h
  | succ fuel ih =>
    intro jobId s d s' h k hk hl
    unfold getDepthF at h
    cases hmemo : lookupDepth s.depths jobId with
    | some d0 =>
      simp only [hmemo] at h
      cases h
      exact hl
    | none =>
      simp only [hmemo] at h
      by_cases hvis : jobId ∈ s.visited
      · rw [if_pos hvis] at h
        cases h
        exact hl
      · have hkne : jobId ≠ k := fun he => hvis (he ▸ hk)
        rw [if_neg hvis] at h
        cases hjob : jobMapGet jobs jobId with
        | none =>
          simp only [hjob] at h
          cases h
          rw [lookupDepth_cons, if_neg hkne]
          exact hl
        | some job =>
          simp only [hjob] at h
          by_cases hdeps : job.dependencies.isEmpty
          · rw [if_pos hdeps] at h
            cases h
            rw [lookupDepth_cons, if_neg hkne]
            exact hl
          · rw [if_neg hdeps] at h
            cases hgo : goDepsAux jobs (getDepthF jobs fuel) job.dependencies
                ⟨jobId :: s.visited, s.depths⟩ 0 with
            | none =>
              simp only [hgo] at h
              exact Option.noConfusion h
            | some r =>
              obtain ⟨m, s2⟩ := r
              simp only [hgo] at h
              cases h
              rw [lookupDepth_cons, if_neg hkne]
              exact goDepsAux_inprog jobs _
                (fun jid s0 d0 s0' hr => (getDepthF_mono jobs fuel jid s0 d0 s0' hr).1)
                (ih)
                job.dependencies _ 0 _ s2 hgo k
                (List.mem_cons.mpr (Or.inr hk)) hl

/-- The dependency ids of a job that resolve to a job present in the map. -/
def resolvedDeps (jobs : List Job) (j : Job) : List String :=
  j.dependencies.filter (fun depId => (jobMapGet jobs depId).isSome)

/-- The defining recurrence of the memo table: every memoized id whose job
resolves satisfies "0 when no resolvable dependencies, else one more than the
maximum memoized depth of its resolvable dependencies". -/
def GoodD (jobs : List Job) (D : List (String × Nat)) : Prop :=
  ∀ k n, lookupDepth D k = some n →
    ∀ job, jobMapGet jobs k = some job →
      (resolvedDeps jobs job = [] → n = 0) ∧
      (resolvedDeps jobs job ≠ [] →
        (∀ depId ∈ resolvedDeps jobs job, ∃ m,
          lookupDepth D depId = some m ∧ m + 1 ≤ n) ∧
        (∃ depId ∈ resolvedDeps jobs job, ∃ m,
          lookupDepth D depId = some m ∧ n = m + 1))

theorem GoodD_cons (jobs : List Job) (D : List (String × Nat)) (k0 : String)
    (n0 : Nat) (hfresh : lookupDepth D k0 = none) (hG : GoodD jobs D)
    (hnew : ∀ job, jobMapGet jobs k0 = some job →
      (resolvedDeps jobs job = [] → n0 = 0) ∧
      (resolvedDeps jobs job ≠ [] →
        (∀ depId ∈ resolvedDeps jobs job, ∃ m,
          lookupDepth ((k0, n0) :: D) depId = some m ∧ m + 1 ≤ n0) ∧
        (∃ depId ∈ resolvedDeps jobs job, ∃ m,
          lookupDepth ((k0, n0) :: D) depId = some m ∧ n0 = m + 1))) :
    GoodD jobs ((k0, n0) :: D) := by
  intro k n hlook job hjob
  rw [lookupDepth_cons] at hlook
  by_cases hk : k0 = k
  · rw [if_pos hk] at hlook
    cases hlook
    exact hnew job (hk ▸ hjob)
  · rw [if_neg hk] at hlook
    obtain ⟨h1, h2⟩ := hG k n hlook job hjob
    refine ⟨h1, fun hne => ?_⟩
    obtain ⟨hall, hex⟩ := h2 hne
    constructor
    · intro depId hdep
      obtain ⟨m, hm, hle⟩ := hall depId hdep
      refine ⟨m, ?_, hle⟩
      rw [lookupDepth_cons]
      by_cases hd : k0 = depId
      · subst hd
        rw [hfresh] at hm
        cases hm
      · rw [if_neg hd]
        exact hm
    · obtain ⟨depId, hdep, m, hm, heq⟩ := hex
      refine ⟨depId, hdep, m, ?_, heq⟩
      rw [lookupDepth_cons]
      by_cases hd : k0 = depId
      · subst hd
        rw [hfresh] at hm
        cases hm
      · rw [if_neg hd]
        exact hm

theorem goDepsAux_correct (jobs : List Job) (rank : String → Nat)
    (rec : String → DepthState → Option (Nat × DepthState))
    (hrecmono : ∀ jobId s d s', rec jobId s = some (d, s') →
      (∀ x ∈ s.visited, x ∈ s'.visited) ∧
      (∀ k v, lookupDepth s.depths k = some v →
        lookupDepth s'.depths k = some v))
    (hreccorrect : ∀ jobId s d s', rec jobId s = some (d, s') →
      GoodD jobs s.depths →
      (∀ v ∈ s.visited, lookupDepth s.depths v = none → rank jobId < rank v) →
      GoodD jobs s'.depths ∧
      lookupDepth s'.depths jobId = some d ∧
      (∀ v, v ∈ s'.visited → lookupDepth s'.depths v = none →
        v ∈ s.visited ∧ lookupDepth s.depths v = none)) :
    ∀ (deps : List String) (s : DepthState) (acc m : Nat) (s2 : DepthState),
      goDepsAux jobs rec deps s acc = some (m, s2) →
      GoodD jobs s.depths →
      (∀ v ∈ s.visited, lookupDepth s.depths v = none →
        ∀ depId ∈ deps, (jobMapGet jobs depId).isSome = true →
          rank depId < rank v) →
      GoodD jobs s2.depths ∧
      (∀ v, v ∈ s2.visited → lookupDepth s2.depths v = none →
        v ∈ s.visited ∧ lookupDepth s.depths v = none) ∧
      acc ≤ m ∧
      (∀ depId ∈ deps, (jobMapGet jobs depId).isSome = true →
        ∃ dv, lookupDepth s2.depths depId = some dv ∧ dv + 1 ≤ m) ∧
      (m = acc ∨ ∃ depId ∈ deps, (jobMapGet jobs depId).isSome = true ∧
        ∃ dv, lookupDepth s2.depths depId = some dv ∧ m = dv + 1) := by
  intro deps
  induction deps with
  | nil =>
    intro s acc m s2 h hG _
    unfold goDepsAux at h
    cases h
    exact ⟨hG, fun v hv hl => ⟨hv, hl⟩, le_refl _, by simp, Or.inl rfl⟩
  | cons depId rest ih =>
    intro s acc m s2 h hG hvisr
    unfold goDepsAux at h
    by_cases hres : (jobMapGet jobs depId).isSome
    · rw [if_pos hres] at h
      cases hrec' : rec depId s with
      | none => rw [hrec'] at h; cases h
      | some r =>
        obtain ⟨d1, s1⟩ := r
        rw [hrec'] at h
        obtain ⟨hG1, hlook1, hinprog1⟩ := hreccorrect depId s d1 s1 hrec' hG
          (fun v hv hl => hvisr v hv hl depId (by simp) hres)
        obtain ⟨hG2, hinprog2, hacc2, hdeps2, hmax2⟩ :=
          ih s1 (max acc (d1 + 1)) m s2 h hG1
            (fun v hv hl depId' hdep' hres' =>
              hvisr v (hinprog1 v hv hl).1 (hinprog1 v hv hl).2 depId'
                (List.mem_cons.mpr (Or.inr hdep')) hres')
        have hmono2 := goDepsAux_mono jobs rec hrecmono rest s1 _ m s2 h
        refine ⟨hG2, ?_, ?_, ?_, ?_⟩
        · intro v hv hl
          have h2 := hinprog2 v hv hl
          exact hinprog1 v h2.1 h2.2
        · calc acc ≤ max acc (d1 + 1) := le_max_left _ _
            _ ≤ m := hacc2
        · intro depId' hdep' hres'
          rcases List.mem_cons.mp hdep' with rfl | hdep''
          · refine ⟨d1, hmono2.2 depId' d1 hlook1, ?_⟩
            calc d1 + 1 ≤ max acc (d1 + 1) := le_max_right _ _
              _ ≤ m := hacc2
          · exact hdeps2 depId' hdep'' hres'
        · rcases hmax2 with heq | hex
          · by_cases hcase : d1 + 1 ≤ acc
            · left
              rw [heq]
              exact max_eq_left hcase
            · right
              refine ⟨depId, by simp, hres, d1,
                hmono2.2 depId d1 hlook1, ?_⟩
              rw [heq]
              exact max_eq_right (Nat.le_of_not_le hcase)
          · right
            obtain ⟨depId', hdep', hres', dv, hdv, hm⟩ := hex
            exact ⟨depId', List.mem_cons.mpr (Or.inr hdep'), hres', dv, hdv, hm⟩
    · rw [if_neg hres] at h
      obtain ⟨hG2, hinprog2, hacc2, hdeps2, hmax2⟩ :=
        ih s acc m s2 h hG
          (fun v hv hl depId' hdep' hres' =>
            hvisr v hv hl depId' (List.mem_cons.mpr (Or.inr hdep')) hres')
      refine ⟨hG2, hinprog2, hacc2, ?_, ?_⟩
      · intro depId' hdep' hres'
        rcases List.mem_cons.mp hdep' with rfl | hdep''
        · exact absurd hres' hres
        · exact hdeps2 depId' hdep'' hres'
      · rcases hmax2 with heq | hex
        · exact Or.inl heq
        · right
          obtain ⟨depId', hdep', hres', dv, hdv, hm⟩ := hex
          exact ⟨depId', List.mem_cons.mpr (Or.inr hdep'), hres', dv, hdv, hm⟩

theorem mem_resolvedDeps (jobs : List Job) (j : Job) (depId : String) :
    depId ∈ resolvedDeps jobs j ↔
      depId ∈ j.dependencies ∧ (jobMapGet jobs depId).isSome = true := by
  unfold resolvedDeps
  rw [List.mem_filter]

theorem getDepthF_correct (jobs : List Job) (rank : String → Nat)
    (hrank : ∀ j ∈ jobs, ∀ depId ∈ j.dependencies,
      (jobMapGet jobs depId).isSome = true → rank depId < rank j.id) :
    ∀ (fuel : Nat) (jobId : String) (s : DepthState) (d : Nat) (s' : DepthState),
      getDepthF jobs fuel jobId s = some (d, s') →
      GoodD jobs s.depths →
      (∀ v ∈ s.visited, lookupDepth s.depths v = none → rank jobId < rank v) →
      GoodD jobs s'.depths ∧
      lookupDepth s'.depths jobId = some d ∧
      (∀ v, v ∈ s'.visited → lookupDepth s'.depths v = none →
        v ∈ s.visited ∧ lookupDepth s.depths v = none) := by
  intro fuel
  induction fuel with
  | zero =>
    intro jobId s d s' h
    simp [getDepthF] at h
  | succ fuel ih =>
    intro jobId s d s' h hG hvisr
    unfold getDepthF at h
    cases hmemo : lookupDepth s.depths jobId with
    | some d0 =>
      simp only [hmemo] at h
      cases h
      exact ⟨hG, hmemo, fun v hv hl => ⟨hv, hl⟩⟩
    | none =>
      simp only [hmemo] at h
      by_cases hvis : jobId ∈ s.visited
      · exact absurd (hvisr jobId hvis hmemo) (lt_irrefl _)
      · rw [if_neg hvis] at h
        cases hjob : jobMapGet jobs jobId with
        | none =>
          simp only [hjob] at h
          cases h
          refine ⟨?_, by rw [lookupDepth_cons, if_pos rfl], ?_⟩
          · refine GoodD_cons jobs s.depths jobId 0 hmemo hG ?_
            intro job hjob'
            rw [hjob] at hjob'
            cases hjob'
          · intro v hv hl
            rcases List.mem_cons.mp hv with rfl | hv'
            · rw [lookupDepth_cons, if_pos rfl] at hl
              cases hl
            · have hne : jobId ≠ v := fun he => hvis (he ▸ hv')
              rw [lookupDepth_cons, if_neg hne] at hl
              exact ⟨hv', hl⟩
        | some job =>
          simp only [hjob] at h
          have hjm := jobMapGet_mem jobs jobId job hjob
          by_cases hdeps : job.dependencies.isEmpty
          · rw [if_pos hdeps] at h
            cases h
            have hresnil : resolvedDeps jobs job = [] := by
              unfold resolvedDeps
              rw [List.isEmpty_iff.mp hdeps]
              rfl
            refine ⟨?_, by rw [lookupDepth_cons, if_pos rfl], ?_⟩
            · refine GoodD_cons jobs s.depths jobId 0 hmemo hG ?_
              intro job' hjob'
              rw [hjob] at hjob'
              cases hjob'
              exact ⟨fun _ => rfl, fun hne => absurd hresnil hne⟩
            · intro v hv hl
              rcases List.mem_cons.mp hv with rfl | hv'
              · rw [lookupDepth_cons, if_pos rfl] at hl
                cases hl
              · have hne : jobId ≠ v := fun he => hvis (he ▸ hv')
                rw [lookupDepth_cons, if_neg hne] at hl
                exact ⟨hv', hl⟩
          · rw [if_neg hdeps] at h
            cases hgo : goDepsAux jobs (getDepthF jobs fuel) job.dependencies
                ⟨jobId :: s.visited, s.depths⟩ 0 with
            | none =>
              simp only [hgo] at h
              exact Option.noConfusion h
            | some r =>
              obtain ⟨m, s2⟩ := r
              simp only [hgo] at h
              cases h
              obtain ⟨hG2, hinprog2, _, hdeps2, hmax2⟩ :=
                goDepsAux_correct jobs rank (getDepthF jobs fuel)
                  (getDepthF_mono jobs fuel) ih job.dependencies
                  ⟨jobId :: s.visited, s.depths⟩ 0 d s2 hgo hG
                  (by
                    intro v hv hl depId' hdep' hres'
                    have hdlt : rank depId' < rank jobId := by
                      have := hrank job hjm.1 depId' hdep' hres'
                      rwa [hjm.2] at this
                    rcases List.mem_cons.mp hv with rfl | hv'
                    · exact hdlt
                    · exact lt_trans hdlt (hvisr v hv' hl))
              have hfresh : lookupDepth s2.depths jobId = none :=
                goDepsAux_inprog jobs (getDepthF jobs fuel)
                  (fun jid s0 d0 s0' hr =>
                    (getDepthF_mono jobs fuel jid s0 d0 s0' hr).1)
                  (getDepthF_inprog jobs fuel) job.dependencies
                  ⟨jobId :: s.visited, s.depths⟩ 0 d s2 hgo jobId
                  (by simp) hmemo
              refine ⟨?_, by rw [lookupDepth_cons, if_pos rfl], ?_⟩
              · refine GoodD_cons jobs s2.depths jobId d hfresh hG2 ?_
                intro job0 hjob0
                rw [hjob] at hjob0
                cases hjob0
                constructor
                · intro hresnil
                  rcases hmax2 with heq | hex
                  · exact heq
                  · obtain ⟨depId', hdep', hres', _, _, _⟩ := hex
                    have : depId' ∈ resolvedDeps jobs job :=
                      (mem_resolvedDeps jobs job depId').mpr ⟨hdep', hres'⟩
                    rw [hresnil] at this
                    cases this
                · intro hresne
                  constructor
                  · intro depId' hdep'
                    obtain ⟨hd1, hd2⟩ := (mem_resolvedDeps jobs job depId').mp hdep'
                    obtain ⟨dv, hdv, hle⟩ := hdeps2 depId' hd1 hd2
                    refine ⟨dv, ?_, hle⟩
                    rw [lookupDepth_cons]
                    by_cases hd : jobId = depId'
                    · subst hd
                      rw [hfresh] at hdv
                      cases hdv
                    · rw [if_neg hd]
                      exact hdv
                  · rcases hmax2 with heq | hex
                    · obtain ⟨depId', hdep'⟩ := List.exists_mem_of_ne_nil _ hresne
                      obtain ⟨hd1, hd2⟩ := (mem_resolvedDeps jobs job depId').mp hdep'
                      obtain ⟨dv, _, hle⟩ := hdeps2 depId' hd1 hd2
                      omega
                    · obtain ⟨depId', hdep', hres', dv, hdv, hm⟩ := hex
                      refine ⟨depId',
                        (mem_resolvedDeps jobs job depId').mpr ⟨hdep', hres'⟩,
                        dv, ?_, hm⟩
                      rw [lookupDepth_cons]
                      by_cases hd : jobId = depId'
                      · subst hd
                        rw [hfresh] at hdv
                        cases hdv
                      · rw [if_neg hd]
                        exact hdv
              · intro v hv hl
                by_cases hveq : jobId = v
                · rw [lookupDepth_cons, if_pos hveq] at hl
                  cases hl
                · rw [lookupDepth_cons, if_neg hveq] at hl
                  have h2 := hinprog2 v hv hl
                  rcases List.mem_cons.mp h2.1 with rfl | hv'
                  · exact absurd rfl hveq
                  · exact ⟨hv', h2.2⟩

theorem GoodD_nil (jobs : List Job) : GoodD jobs [] := by
  intro k n h
  simp [lookupDepth] at h

theorem runDepths_goodD (jobs : List Job) (rank : String → Nat)
    (hrank : ∀ j ∈ jobs, ∀ depId ∈ j.dependencies,
      (jobMapGet jobs depId).isSome = true → rank depId < rank j.id) :
    ∀ (todo : List Job) (ds : List (String × Nat)), GoodD jobs ds →
      ∃ D, todo.foldlM
          (fun ds j => (getDepthF jobs (jobs.length + 1) j.id ⟨[], ds⟩).map
            (fun r => r.2.depths)) ds = some D ∧
        GoodD jobs D ∧
        (∀ k v, lookupDepth ds k = some v → lookupDepth D k = some v) ∧
        (∀ j ∈ todo, ∃ n, lookupDepth D j.id = some n) := by
  intro todo
  induction todo using List.reverseRecOn with
  | nil =>
    intro ds hGds
    exact ⟨ds, rfl, hGds, fun k v h => h, by simp⟩
  | append_singleton todo j ih =>
    intro ds hGds
    obtain ⟨D, hD, hGD, hpres, hall⟩ := ih ds hGds
    have hsome := getDepthF_some jobs (jobs.length + 1) j.id ⟨[], D⟩
      (unvisited_fresh_lt jobs D)
    cases hget : getDepthF jobs (jobs.length + 1) j.id ⟨[], D⟩ with
    | none =>
      rw [hget] at hsome
      cases hsome
    | some r =>
      obtain ⟨d, s'⟩ := r
      have hmono := getDepthF_mono jobs (jobs.length + 1) j.id ⟨[], D⟩ d s' hget
      obtain ⟨hG', hlook', _⟩ :=
        getDepthF_correct jobs rank hrank (jobs.length + 1) j.id ⟨[], D⟩ d s'
          hget hGD (by intro v hv; cases hv)
      refine ⟨s'.depths, ?_, hG', ?_, ?_⟩
      · rw [List.foldlM_append, hD]
        simp [List.foldlM, hget]
      · intro k v hv
        exact hmono.2 k v (hpres k v hv)
      · intro j' hj'
        rcases List.mem_append.mp hj' with hj1 | hj2
        · obtain ⟨n, hn⟩ := hall j' hj1
          exact ⟨n, hmono.2 j'.id n hn⟩
        · rw [List.mem_singleton] at hj2
          subst hj2
          exact ⟨d, hlook'⟩

/-- C2: for every job collection whose resolvable dependency edges admit a
topological rank (an acyclic graph), the depth pass succeeds without error
and the resulting table satisfies the defining recurrence: a job's depth is
`0` exactly when none of its dependency ids resolves to a job present in the
collection, and otherwise it is one more than the maximum depth over its
resolvable dependencies; dangling dependency ids are silently dropped by the
`resolvedDeps` filter rather than raising an error. -/
theorem depth_recurrence (jobs : List Job) (rank : String → Nat)
    (hrank : ∀ j ∈ jobs, ∀ depId ∈ j.dependencies,
      (jobMapGet jobs depId).isSome = true → rank depId < rank j.id) :
    ∃ D, runDepths jobs (jobs.length + 1) = some D ∧
      ∀ j ∈ jobs, ∃ n, lookupDepth D j.id = some n ∧
        ∀ job, jobMapGet jobs j.id = some job →
          ((resolvedDeps jobs job = [] ↔ n = 0) ∧
           (resolvedDeps jobs job ≠ [] →
             (∀ depId ∈ resolvedDeps jobs job, ∃ m,
               lookupDepth D depId = some m ∧ m + 1 ≤ n) ∧
             (∃ depId ∈ resolvedDeps jobs job, ∃ m,
               lookupDepth D depId = some m ∧ n = m + 1))) := by
  obtain ⟨D, hD, hGD, _, hall⟩ :=
    runDepths_goodD jobs rank hrank jobs [] (GoodD_nil jobs)
  refine ⟨D, hD, ?_⟩
  intro j hj
  obtain ⟨n, hn⟩ := hall j hj
  refine ⟨n, hn, ?_⟩
  intro job hjob
  obtain ⟨h0, hrec⟩ := hGD j.id n hn job hjob
  refine ⟨⟨h0, ?_⟩, hrec⟩
  intro hn0
  by_contra hne
  obtain ⟨_, _, _, _, hm⟩ := hrec hne
  omega

theorem depth_recurrence_witness :
    (∀ j ∈ [Job.mk "B" "b" "success" "build" none none none ([] : List String),
            Job.mk "A" "a" "success" "build" none none none ["B", "X"]],
      ∀ depId ∈ j.dependencies,
        (jobMapGet
          [Job.mk "B" "b" "success" "build" none none none ([] : List String),
           Job.mk "A" "a" "success" "build" none none none ["B", "X"]]
          depId).isSome = true →
        (fun id => if id = "A" then 1 else 0) depId <
          (fun id => if id = "A" then 1 else 0) j.id) ∧
    (∃ D, runDepths
        [Job.mk "B" "b" "success" "build" none none none ([] : List String),
         Job.mk "A" "a" "success" "build" none none none ["B", "X"]] 3 =
        some D ∧
      ∀ j ∈ [Job.mk "B" "b" "success" "build" none none none ([] : List String),
             Job.mk "A" "a" "success" "build" none none none ["B", "X"]],
        ∃ n, lookupDepth D j.id = some n ∧
          ∀ job, jobMapGet
              [Job.mk "B" "b" "success" "build" none none none ([] : List String),
               Job.mk "A" "a" "success" "build" none none none ["B", "X"]]
              j.id = some job →
            ((resolvedDeps
                [Job.mk "B" "b" "success" "build" none none none ([] : List String),
                 Job.mk "A" "a" "success" "build" none none none ["B", "X"]]
                job = [] ↔ n = 0) ∧
             (resolvedDeps
                [Job.mk "B" "b" "success" "build" none none none ([] : List String),
                 Job.mk "A" "a" "success" "build" none none none ["B", "X"]]
                job ≠ [] →
               (∀ depId ∈ resolvedDeps
                  [Job.mk "B" "b" "success" "build" none none none ([] : List String),
                   Job.mk "A" "a" "success" "build" none none none ["B", "X"]]
                  job, ∃ m,
                 lookupDepth D depId = some m ∧ m + 1 ≤ n) ∧
               (∃ depId ∈ resolvedDeps
                  [Job.mk "B" "b" "success" "build" none none none ([] : List String),
                   Job.mk "A" "a" "success" "build" none none none ["B", "X"]]
                  job, ∃ m,
                 lookupDepth D depId = some m ∧ n = m + 1)))) :=
  ⟨by decide,
   depth_recurrence
     [Job.mk "B" "b" "success" "build" none none none ([] : List String),
      Job.mk "A" "a" "success" "build" none none none ["B", "X"]]
     (fun id => if id = "A" then 1 else 0) (by decide)⟩

/-! ### Permutation invariance of the layout -/

theorem jobMapGet_none_iff (jobs : List Job) (k : String) :
    jobMapGet jobs k = none ↔ ∀ j ∈ jobs, j.id ≠ k := by
  unfold jobMapGet
  rw [List.find?_eq_none]
  constructor
  · intro h j hj
    have := h j (List.mem_reverse.mpr hj)
    simpa using this
  · intro h j hj
    have := h j (List.mem_reverse.mp hj)
    simpa using this

theorem jobMapGet_perm (l1 l2 : List Job) (hperm : l1.Perm l2)
    (hids : (l1.map Job.id).Nodup) (k : String) :
    jobMapGet l1 k = jobMapGet l2 k := by
  have hids2 : (l2.map Job.id).Nodup := ((hperm.map Job.id).nodup_iff).mp hids
  cases h1 : jobMapGet l1 k with
  | some j =>
    obtain ⟨hj, hid⟩ := jobMapGet_mem l1 k j h1
    have hs := jobMapGet_self l2 hids2 j (hperm.mem_iff.mp hj)
    rw [hid] at hs
    exact hs.symm
  | none =>
    have hnone := (jobMapGet_none_iff l1 k).mp h1
    exact ((jobMapGet_none_iff l2 k).mpr
      (fun j hj => hnone j (hperm.mem_iff.mpr hj))).symm

theorem hrank_perm (l1 l2 : List Job) (rank : String → Nat)
    (hperm : l1.Perm l2) (hids : (l1.map Job.id).Nodup)
    (hrank : ∀ j ∈ l1, ∀ depId ∈ j.dependencies,
      (jobMapGet l1 depId).isSome = true → rank depId < rank j.id) :
    ∀ j ∈ l2, ∀ depId ∈ j.dependencies,
      (jobMapGet l2 depId).isSome = true → rank depId < rank j.id := by
  intro j hj depId hdep hres
  exact hrank j (hperm.mem_iff.mpr hj) depId hdep
    (by rwa [jobMapGet_perm l1 l2 hperm hids depId])

theorem resolvedDeps_perm (l1 l2 : List Job) (hperm : l1.Perm l2)
    (hids : (l1.map Job.id).Nodup) (j : Job) :
    resolvedDeps l1 j = resolvedDeps l2 j := by
  unfold resolvedDeps
  apply List.filter_congr
  intro x _
  rw [jobMapGet_perm l1 l2 hperm hids x]

theorem lookup_agree (l1 l2 : List Job) (rank : String → Nat)
    (hperm : l1.Perm l2) (hids : (l1.map Job.id).Nodup)
    (hrank : ∀ j ∈ l1, ∀ depId ∈ j.dependencies,
      (jobMapGet l1 depId).isSome = true → rank depId < rank j.id)
    (D1 D2 : List (String × Nat))
    (hG1 : GoodD l1 D1) (hG2 : GoodD l2 D2) :
    ∀ (N : Nat) (j : Job), j ∈ l1 → rank j.id < N →
      ∀ n1 n2, lookupDepth D1 j.id = some n1 → lookupDepth D2 j.id = some n2 →
        n1 = n2 := by
  intro N
  induction N with
  | zero =>
    intro j _ h
    omega
  | succ N ih =>
    intro j hj hlt n1 n2 h1 h2
    have hj2 : j ∈ l2 := hperm.mem_iff.mp hj
    have hids2 : (l2.map Job.id).Nodup := ((hperm.map Job.id).nodup_iff).mp hids
    have hself1 : jobMapGet l1 j.id = some j := jobMapGet_self l1 hids j hj
    have hself2 : jobMapGet l2 j.id = some j := jobMapGet_self l2 hids2 j hj2
    obtain ⟨hz1, hr1⟩ := hG1 j.id n1 h1 j hself1
    obtain ⟨hz2, hr2⟩ := hG2 j.id n2 h2 j hself2
    have hres : resolvedDeps l1 j = resolvedDeps l2 j :=
      resolvedDeps_perm l1 l2 hperm hids j
    by_cases hnil : resolvedDeps l1 j = []
    · rw [hz1 hnil, hz2 (hres ▸ hnil)]
    · obtain ⟨hall1', hex1⟩ := hr1 hnil
      obtain ⟨hall2', hex2⟩ := hr2 (by rw [← hres]; exact hnil)
      have hdep_agree : ∀ depId ∈ resolvedDeps l1 j, ∀ m1 m2,
          lookupDepth D1 depId = some m1 → lookupDepth D2 depId = some m2 →
          m1 = m2 := by
        intro depId hdep m1 m2 hm1 hm2
        obtain ⟨hd1, hd2⟩ := (mem_resolvedDeps l1 j depId).mp hdep
        cases hjm : jobMapGet l1 depId with
        | none =>
          rw [hjm] at hd2
          cases hd2
        | some depJob =>
          obtain ⟨hdj, hdid⟩ := jobMapGet_mem l1 depId depJob hjm
          have hrlt : rank depId < rank j.id := hrank j hj depId hd1 hd2
          have hrN : rank depJob.id < N := by
            rw [hdid]
            omega
          exact ih depJob hdj hrN m1 m2 (by rw [hdid]; exact hm1)
            (by rw [hdid]; exact hm2)
      obtain ⟨d0, hd0, m0, hm0, he0⟩ := hex1
      obtain ⟨m0', hm0', hle0'⟩ := hall2' d0 (hres ▸ hd0)
      have hq0 : m0 = m0' := hdep_agree d0 hd0 m0 m0' hm0 hm0'
      obtain ⟨d1', hd1', m1', hm1', he1'⟩ := hex2
      have hd1'' : d1' ∈ resolvedDeps l1 j := by
        rw [hres]
        exact hd1'
      obtain ⟨m1'', hm1'', hle1''⟩ := hall1' d1' hd1''
      have hq1 : m1'' = m1' := hdep_agree d1' hd1'' m1'' m1' hm1'' hm1'
      omega

theorem depthOf_perm (l1 l2 : List Job) (rank : String → Nat)
    (hperm : l1.Perm l2) (hids : (l1.map Job.id).Nodup)
    (hrank : ∀ j ∈ l1, ∀ depId ∈ j.dependencies,
      (jobMapGet l1 depId).isSome = true → rank depId < rank j.id) :
    ∀ j ∈ l1, depthOf l1 j.id = depthOf l2 j.id := by
  intro j hj
  have hrank2 := hrank_perm l1 l2 rank hperm hids hrank
  obtain ⟨D1, hD1, hG1, _, hall1⟩ :=
    runDepths_goodD l1 rank hrank l1 [] (GoodD_nil l1)
  obtain ⟨D2, hD2, hG2, _, hall2⟩ :=
    runDepths_goodD l2 rank hrank2 l2 [] (GoodD_nil l2)
  obtain ⟨n1, h1⟩ := hall1 j hj
  obtain ⟨n2, h2⟩ := hall2 j (hperm.mem_iff.mp hj)
  have heq : n1 = n2 :=
    lookup_agree l1 l2 rank hperm hids hrank D1 D2 hG1 hG2
      (rank j.id + 1) j hj (Nat.lt_succ_self _) n1 n2 h1 h2
  have hrd1 : runDepths l1 (l1.length + 1) = some D1 := hD1
  have hrd2 : runDepths l2 (l2.length + 1) = some D2 := hD2
  unfold depthOf depthsOf
  rw [hrd1, hrd2]
  simp only [Option.getD_some]
  rw [h1, h2, heq]

theorem columnOf_perm (l1 l2 : List Job) (rank : String → Nat)
    (hperm : l1.Perm l2) (hids : (l1.map Job.id).Nodup)
    (hrank : ∀ j ∈ l1, ∀ depId ∈ j.dependencies,
      (jobMapGet l1 depId).isSome = true → rank depId < rank j.id)
    (d : Nat) : (columnOf l1 d).Perm (columnOf l2 d) := by
  unfold columnOf
  have h1 : l1.filter (fun j => depthOf l1 j.id = d) =
      l1.filter (fun j => depthOf l2 j.id = d) := by
    apply List.filter_congr
    intro x hx
    rw [depthOf_perm l1 l2 rank hperm hids hrank x hx]
  rw [h1]
  exact hperm.filter _

def nameLtNe (a b : Job) : Prop := a.name ≤ b.name ∧ a.name ≠ b.name

instance : IsAntisymm Job nameLtNe :=
  ⟨fun _ _ h1 h2 => absurd (le_antisymm h1.1 h2.1) h1.2⟩

theorem sortedColumnOf_sorted_strict (l : List Job)
    (hnames : (l.map Job.name).Nodup) (d : Nat) :
    List.Sorted nameLtNe (sortedColumnOf l d) := by
  have hs : List.Sorted nameLe (sortedColumnOf l d) :=
    List.sorted_insertionSort nameLe (columnOf l d)
  have hn' : ((sortedColumnOf l d).map Job.name).Nodup := by
    have hsub : (columnOf l d).Sublist l := List.filter_sublist l
    have h1 : ((columnOf l d).map Job.name).Nodup :=
      (hsub.map Job.name).nodup hnames
    exact ((List.perm_insertionSort nameLe (columnOf l d)).map
      Job.name).nodup_iff.mpr h1
  have hn : (sortedColumnOf l d).Pairwise (fun a b => Job.name a ≠ Job.name b) :=
    (List.pairwise_map).mp hn'
  exact hs.and hn

theorem sortedColumnOf_perm_eq (l1 l2 : List Job) (rank : String → Nat)
    (hperm : l1.Perm l2) (hids : (l1.map Job.id).Nodup)
    (hnames : (l1.map Job.name).Nodup)
    (hrank : ∀ j ∈ l1, ∀ depId ∈ j.dependencies,
      (jobMapGet l1 depId).isSome = true → rank depId < rank j.id)
    (d : Nat) : sortedColumnOf l1 d = sortedColumnOf l2 d := by
  have hnames2 : (l2.map Job.name).Nodup :=
    ((hperm.map Job.name).nodup_iff).mp hnames
  have hp : (sortedColumnOf l1 d).Perm (sortedColumnOf l2 d) :=
    ((List.perm_insertionSort nameLe (columnOf l1 d)).trans
      (columnOf_perm l1 l2 rank hperm hids hrank d)).trans
      (List.perm_insertionSort nameLe (columnOf l2 d)).symm
  exact List.eq_of_perm_of_sorted hp
    (sortedColumnOf_sorted_strict l1 hnames d)
    (sortedColumnOf_sorted_strict l2 hnames2 d)

theorem depthKeys_mem_iff (l1 l2 : List Job) (rank : String → Nat)
    (hperm : l1.Perm l2) (hids : (l1.map Job.id).Nodup)
    (hrank : ∀ j ∈ l1, ∀ depId ∈ j.dependencies,
      (jobMapGet l1 depId).isSome = true → rank depId < rank j.id)
    (d : Nat) : d ∈ depthKeysOf l1 ↔ d ∈ depthKeysOf l2 := by
  unfold depthKeysOf
  rw [mem_firstOccurs, mem_firstOccurs, List.mem_map, List.mem_map]
  constructor
  · rintro ⟨j, hj, rfl⟩
    exact ⟨j, hperm.mem_iff.mp hj,
      (depthOf_perm l1 l2 rank hperm hids hrank j hj).symm⟩
  · rintro ⟨j, hj, rfl⟩
    have hj1 : j ∈ l1 := hperm.mem_iff.mpr hj
    exact ⟨j, hj1, depthOf_perm l1 l2 rank hperm hids hrank j hj1⟩

theorem mem_layoutNodes_iff (l : List Job) (nd : GraphNode) :
    nd ∈ layoutNodes l ↔ ∃ d ∈ depthKeysOf l,
      ∃ r ∈ (sortedColumnOf l d).enum, nd = mkNode d r.1 r.2 := by
  unfold layoutNodes
  rw [List.mem_flatten]
  constructor
  · rintro ⟨blk, hblk, hnd⟩
    obtain ⟨d, hd, rfl⟩ := List.mem_map.mp hblk
    obtain ⟨r, hr, rfl⟩ := List.mem_map.mp hnd
    exact ⟨d, hd, r, hr, rfl⟩
  · rintro ⟨d, hd, r, hr, rfl⟩
    exact ⟨_, List.mem_map.mpr ⟨d, hd, rfl⟩, List.mem_map.mpr ⟨r, hr, rfl⟩⟩

theorem layoutNodes_mem_iff_perm (l1 l2 : List Job) (rank : String → Nat)
    (hperm : l1.Perm l2) (hids : (l1.map Job.id).Nodup)
    (hnames : (l1.map Job.name).Nodup)
    (hrank : ∀ j ∈ l1, ∀ depId ∈ j.dependencies,
      (jobMapGet l1 depId).isSome = true → rank depId < rank j.id)
    (nd : GraphNode) : nd ∈ layoutNodes l1 ↔ nd ∈ layoutNodes l2 := by
  rw [mem_layoutNodes_iff, mem_layoutNodes_iff]
  constructor
  · rintro ⟨d, hd, r, hr, rfl⟩
    refine ⟨d, (depthKeys_mem_iff l1 l2 rank hperm hids hrank d).mp hd, r, ?_, rfl⟩
    rwa [← sortedColumnOf_perm_eq l1 l2 rank hperm hids hnames hrank d]
  · rintro ⟨d, hd, r, hr, rfl⟩
    refine ⟨d, (depthKeys_mem_iff l1 l2 rank hperm hids hrank d).mpr hd, r, ?_, rfl⟩
    rwa [sortedColumnOf_perm_eq l1 l2 rank hperm hids hnames hrank d]

theorem mem_of_sortedColumn_enum (l : List Job) (d : Nat) (i : Nat) (j : Job)
    (hr : (i, j) ∈ (sortedColumnOf l d).enum) :
    j ∈ l ∧ depthOf l j.id = d ∧ (sortedColumnOf l d)[i]? = some j := by
  have hget : (sortedColumnOf l d)[i]? = some j :=
    (List.mk_mem_enum_iff_getElem?).mp hr
  obtain ⟨hlt, he⟩ := List.getElem?_eq_some.mp hget
  have hmem : j ∈ sortedColumnOf l d := he ▸ List.getElem_mem _
  have hcol : j ∈ columnOf l d :=
    (List.perm_insertionSort nameLe (columnOf l d)).mem_iff.mp hmem
  obtain ⟨hl, hp⟩ := List.mem_filter.mp hcol
  exact ⟨hl, of_decide_eq_true hp, hget⟩

theorem layoutNodes_id_unique (l : List Job) (hids : (l.map Job.id).Nodup)
    (nd1 nd2 : GraphNode) (h1 : nd1 ∈ layoutNodes l) (h2 : nd2 ∈ layoutNodes l)
    (hid : nd1.id = nd2.id) : nd1 = nd2 := by
  rw [mem_layoutNodes_iff] at h1 h2
  obtain ⟨d1, hd1, r1, hr1, rfl⟩ := h1
  obtain ⟨d2, hd2, r2, hr2, rfl⟩ := h2
  obtain ⟨i1, j1⟩ := r1
  obtain ⟨i2, j2⟩ := r2
  obtain ⟨hl1, hdep1, hget1⟩ := mem_of_sortedColumn_enum l d1 i1 j1 hr1
  obtain ⟨hl2, hdep2, hget2⟩ := mem_of_sortedColumn_enum l d2 i2 j2 hr2
  have hjid : j1.id = j2.id := hid
  have hjeq : j1 = j2 := List.inj_on_of_nodup_map hids hl1 hl2 hjid
  subst hjeq
  have hdeq : d1 = d2 := by
    rw [← hdep1, ← hdep2]
  subst hdeq
  have hnodup : (sortedColumnOf l d1).Nodup := by
    have hlnd : l.Nodup := List.Nodup.of_map _ hids
    have hcolnd : (columnOf l d1).Nodup := List.Nodup.sublist (List.filter_sublist l) hlnd
    exact ((List.perm_insertionSort nameLe (columnOf l d1)).nodup_iff).mpr hcolnd
  obtain ⟨hlt1, he1⟩ := List.getElem?_eq_some.mp hget1
  obtain ⟨hlt2, he2⟩ := List.getElem?_eq_some.mp hget2
  have hinj := List.nodup_iff_injective_get.mp hnodup
  have hfin : (⟨i1, hlt1⟩ : Fin (sortedColumnOf l d1).length) = ⟨i2, hlt2⟩ := by
    apply hinj
    rw [List.get_eq_getElem, List.get_eq_getElem, he1, he2]
  have hieq : i1 = i2 := congrArg Fin.val hfin
  subst hieq
  rfl

theorem layout_find_eq (l1 l2 : List Job) (rank : String → Nat)
    (hperm : l1.Perm l2) (hids : (l1.map Job.id).Nodup)
    (hnames : (l1.map Job.name).Nodup)
    (hrank : ∀ j ∈ l1, ∀ depId ∈ j.dependencies,
      (jobMapGet l1 depId).isSome = true → rank depId < rank j.id)
    (id : String) :
    (layoutNodes l1).find? (fun n => n.id = id) =
      (layoutNodes l2).find? (fun n => n.id = id) := by
  cases hf : (layoutNodes l1).find? (fun n => n.id = id) with
  | some nd =>
    have hmem := List.mem_of_find?_eq_some hf
    have hp := List.find?_some hf
    have hmem2 : nd ∈ layoutNodes l2 :=
      (layoutNodes_mem_iff_perm l1 l2 rank hperm hids hnames hrank nd).mp hmem
    refine (find?_of_unique _ _ nd hmem2 hp ?_).symm
    intro b hb hpb
    have hb1 : b ∈ layoutNodes l1 :=
      (layoutNodes_mem_iff_perm l1 l2 rank hperm hids hnames hrank b).mpr hb
    apply layoutNodes_id_unique l1 hids b nd hb1 hmem
    have hq1 : b.id = id := of_decide_eq_true hpb
    have hq2 : nd.id = id := of_decide_eq_true hp
    rw [hq1, hq2]
  | none =>
    symm
    rw [List.find?_eq_none] at hf ⊢
    intro x hx
    exact hf x ((layoutNodes_mem_iff_perm l1 l2 rank hperm hids hnames hrank x).mpr hx)

theorem foldl_max_f_spec (f : Nat → Nat) :
    ∀ (l : List Nat) (a : Nat),
      a ≤ l.foldl (fun acc d => max acc (f d)) a ∧
      (∀ d ∈ l, f d ≤ l.foldl (fun acc d => max acc (f d)) a) ∧
      (l.foldl (fun acc d => max acc (f d)) a = a ∨
        ∃ d ∈ l, l.foldl (fun acc d => max acc (f d)) a = f d) := by
  intro l
  induction l with
  | nil =>
    intro a
    exact ⟨le_refl _, by simp, Or.inl rfl⟩
  | cons d rest ih =>
    intro a
    obtain ⟨h1, h2, h3⟩ := ih (max a (f d))
    refine ⟨le_trans (le_max_left _ _) h1, ?_, ?_⟩
    · intro d' hd'
      rcases List.mem_cons.mp hd' with rfl | hd''
      · exact le_trans (le_max_right _ _) h1
      · exact h2 d' hd''
    · rcases h3 with heq | hex
      · rcases max_choice a (f d) with hm | hm
        · left
          rw [List.foldl_cons, heq, hm]
        · right
          exact ⟨d, by simp, by rw [List.foldl_cons, heq, hm]⟩
      · obtain ⟨d', hd', heq⟩ := hex
        right
        exact ⟨d', by simp [hd'], by rw [List.foldl_cons, heq]⟩

theorem foldl_max_f_eq (f g : Nat → Nat) (l1 l2 : List Nat)
    (hmem : ∀ d, d ∈ l1 ↔ d ∈ l2) (hfg : ∀ d, f d = g d) :
    l1.foldl (fun acc d => max acc (f d)) 0 =
      l2.foldl (fun acc d => max acc (g d)) 0 := by
  obtain ⟨_, h2a, h3a⟩ := foldl_max_f_spec f l1 0
  obtain ⟨_, h2b, h3b⟩ := foldl_max_f_spec g l2 0
  apply Nat.le_antisymm
  · rcases h3a with heq | hex
    · rw [heq]
      exact Nat.zero_le _
    · obtain ⟨d, hd, heq⟩ := hex
      rw [heq, hfg d]
      exact h2b d ((hmem d).mp hd)
  · rcases h3b with heq | hex
    · rw [heq]
      exact Nat.zero_le _
    · obtain ⟨d, hd, heq⟩ := hex
      rw [heq, ← hfg d]
      exact h2a d ((hmem d).mpr hd)

theorem layoutGraph_width_eq (jobs : List Job) (h : jobs ≠ []) :
    (layoutGraph jobs).width =
      max (PADDING_X * 2 + ((depthKeysOf jobs).foldl max 0) * COL_SPACING +
        NODE_RADIUS * 2) 200 := by
  unfold layoutGraph
  rw [if_neg (fun h0 => h (List.length_eq_zero.mp h0))]

theorem layoutGraph_height_eq (jobs : List Job) (h : jobs ≠ []) :
    (layoutGraph jobs).height =
      max (PADDING_Y * 2 +
        ((depthKeysOf jobs).foldl
          (fun acc d => max acc ((columnOf jobs d).length - 1)) 0) *
          ROW_SPACING + 40) 140 := by
  unfold layoutGraph
  rw [if_neg (fun h0 => h (List.length_eq_zero.mp h0))]

/-- C4 counterexample: the spec claims identical geometry for every pair of
job lists that are permutations of each other, but the cyclic pair A ↔ B
gets different depths depending on input order (A is laid out at depth 2
when listed first and at depth 1 when listed second), so the per-id node
lookup differs between the two orderings. -/
theorem layoutGraph_perm_counterexample :
    ([Job.mk "A" "a" "success" "build" none none none ["B"],
      Job.mk "B" "b" "success" "build" none none none ["A"]]).Perm
      [Job.mk "B" "b" "success" "build" none none none ["A"],
       Job.mk "A" "a" "success" "build" none none none ["B"]] ∧
    ((layoutGraph
      [Job.mk "A" "a" "success" "build" none none none ["B"],
       Job.mk "B" "b" "success" "build" none none none ["A"]]).nodes.find?
        (fun n => n.id = "A")).map (fun n => n.depth) = some 2 ∧
    ((layoutGraph
      [Job.mk "B" "b" "success" "build" none none none ["A"],
       Job.mk "A" "a" "success" "build" none none none ["B"]]).nodes.find?
        (fun n => n.id = "A")).map (fun n => n.depth) = some 1 ∧
    ¬ ((layoutGraph
      [Job.mk "A" "a" "success" "build" none none none ["B"],
       Job.mk "B" "b" "success" "build" none none none ["A"]]).nodes.find?
        (fun n => n.id = "A") =
      (layoutGraph
        [Job.mk "B" "b" "success" "build" none none none ["A"],
         Job.mk "A" "a" "success" "build" none none none ["B"]]).nodes.find?
        (fun n => n.id = "A")) :=
  ⟨List.Perm.swap _ _ _, by decide, by decide, by decide⟩

/-- C4 (amended): for job lists with pairwise-distinct ids, pairwise-distinct
names, and resolvable dependency edges admitting a topological rank (an
acyclic graph — the counterexample shows the cyclic case is genuinely
order-dependent), any two permutations of the same jobs produce identical
per-id node lookups (hence the same depth, row, x and y for every job id)
and identical canvas width and height. -/
theorem layoutGraph_perm (l1 l2 : List Job) (rank : String → Nat)
    (hperm : l1.Perm l2)
    (hids : (l1.map Job.id).Nodup)
    (hnames : (l1.map Job.name).Nodup)
    (hrank : ∀ j ∈ l1, ∀ depId ∈ j.dependencies,
      (jobMapGet l1 depId).isSome = true → rank depId < rank j.id) :
    (∀ id, (layoutGraph l1).nodes.find? (fun n => n.id = id) =
      (layoutGraph l2).nodes.find? (fun n => n.id = id)) ∧
    (layoutGraph l1).width = (layoutGraph l2).width ∧
    (layoutGraph l1).height = (layoutGraph l2).height := by
  by_cases hnil : l1 = []
  · subst hnil
    have h2 : l2 = [] := List.Perm.eq_nil hperm.symm
    subst h2
    exact ⟨fun id => rfl, rfl, rfl⟩
  · have hnil2 : l2 ≠ [] := fun h => hnil (List.Perm.eq_nil (h ▸ hperm))
    refine ⟨?_, ?_, ?_⟩
    · intro id
      rw [layoutGraph_nodes l1 hnil, layoutGraph_nodes l2 hnil2]
      exact layout_find_eq l1 l2 rank hperm hids hnames hrank id
    · rw [layoutGraph_width_eq l1 hnil, layoutGraph_width_eq l2 hnil2]
      have hw : (depthKeysOf l1).foldl max 0 = (depthKeysOf l2).foldl max 0 :=
        foldl_max_f_eq (fun d => d) (fun d => d) (depthKeysOf l1) (depthKeysOf l2)
          (fun d => depthKeys_mem_iff l1 l2 rank hperm hids hrank d)
          (fun d => rfl)
      rw [hw]
    · rw [layoutGraph_height_eq l1 hnil, layoutGraph_height_eq l2 hnil2]
      have hh : (depthKeysOf l1).foldl
            (fun acc d => max acc ((columnOf l1 d).length - 1)) 0 =
          (depthKeysOf l2).foldl
            (fun acc d => max acc ((columnOf l2 d).length - 1)) 0 :=
        foldl_max_f_eq (fun d => (columnOf l1 d).length - 1)
          (fun d => (columnOf l2 d).length - 1)
          (depthKeysOf l1) (depthKeysOf l2)
          (fun d => depthKeys_mem_iff l1 l2 rank hperm hids hrank d)
          (fun d => by
            simp only []
            rw [(columnOf_perm l1 l2 rank hperm hids hrank d).length_eq])
      rw [hh]

theorem layoutGraph_perm_witness :
    ([Job.mk "B" "b" "success" "build" none none none ([] : List String),
      Job.mk "A" "a" "success" "build" none none none ["B"]]).Perm
      [Job.mk "A" "a" "success" "build" none none none ["B"],
       Job.mk "B" "b" "success" "build" none none none ([] : List String)] ∧
    (([Job.mk "B" "b" "success" "build" none none none ([] : List String),
       Job.mk "A" "a" "success" "build" none none none ["B"]].map
        Job.id).Nodup) ∧
    (([Job.mk "B" "b" "success" "build" none none none ([] : List String),
       Job.mk "A" "a" "success" "build" none none none ["B"]].map
        Job.name).Nodup) ∧
    (∀ j ∈ [Job.mk "B" "b" "success" "build" none none none ([] : List String),
            Job.mk "A" "a" "success" "build" none none none ["B"]],
      ∀ depId ∈ j.dependencies,
        (jobMapGet
          [Job.mk "B" "b" "success" "build" none none none ([] : List String),
           Job.mk "A" "a" "success" "build" none none none ["B"]]
          depId).isSome = true →
        (fun id => if id = "A" then 1 else 0) depId <
          (fun id => if id = "A" then 1 else 0) j.id) ∧
    ((∀ id, (layoutGraph
        [Job.mk "B" "b" "success" "build" none none none ([] : List String),
         Job.mk "A" "a" "success" "build" none none none ["B"]]).nodes.find?
          (fun n => n.id = id) =
      (layoutGraph
        [Job.mk "A" "a" "success" "build" none none none ["B"],
         Job.mk "B" "b" "success" "build" none none none ([] : List String)]).nodes.find?
          (fun n => n.id = id)) ∧
    (layoutGraph
      [Job.mk "B" "b" "success" "build" none none none ([] : List String),
       Job.mk "A" "a" "success" "build" none none none ["B"]]).width =
    (layoutGraph
      [Job.mk "A" "a" "success" "build" none none none ["B"],
       Job.mk "B" "b" "success" "build" none none none ([] : List String)]).width ∧
    (layoutGraph
      [Job.mk "B" "b" "success" "build" none none none ([] : List String),
       Job.mk "A" "a" "success" "build" none none none ["B"]]).height =
    (layoutGraph
      [Job.mk "A" "a" "success" "build" none none none ["B"],
       Job.mk "B" "b" "success" "build" none none none ([] : List String)]).height) :=
  ⟨List.Perm.swap _ _ _, by decide, by decide, by decide,
   layoutGraph_perm
     [Job.mk "B" "b" "success" "build" none none none ([] : List String),
      Job.mk "A" "a" "success" "build" none none none ["B"]]
     [Job.mk "A" "a" "success" "build" none none none ["B"],
      Job.mk "B" "b" "success" "build" none none none ([] : List String)]
     (fun id => if id = "A" then 1 else 0)
     (List.Perm.swap _ _ _) (by decide) (by decide) (by decide)⟩
